import Mathlib

/-!
# oniongen-go: address derivation, secret expansion, persistence layout and the search step

A shallow embedding of `main.go`.

* Go `byte` values are natural numbers below 256; a `[]byte` is a `List Nat`.
  Shifts on bytes are truncated to eight bits explicitly (`shl8`).
* Go `string` values that hold identifiers are Lean `String`s; `[]byte(s)` is
  the UTF-8 byte sequence of `s` (`stringBytes`).
* The two hash functions are parameters of the embedding (`HashFn 32` for
  SHA3-256, `HashFn 64` for SHA-512): a function from byte strings to a
  fixed-size byte array.  Both are also implemented (`Sum256`, `Sum512`), so
  that the program can be evaluated at concrete keys.
* The standard library pieces the program calls (`encoding/base32`,
  `strings.ToLower`, `sync.WaitGroup`, `atomic.AddUint64`) are modelled after
  their implementation in the Go standard library.
-/

set_option maxRecDepth 100000

namespace Oniongen

/-! ## Bytes, strings and hash functions -/

/-- Every element of the slice is a byte value. -/
abbrev IsBytes (bs : List Nat) : Prop := ∀ b ∈ bs, b < 256

/-- Go `b << k` on a `uint8`: the result is truncated to eight bits. -/
def shl8 (b k : Nat) : Nat := (b <<< k) % 256

/-- Go `[]byte(s)`: the UTF-8 bytes of the string. -/
def stringBytes (s : String) : List Nat :=
  (s.data.flatMap String.utf8EncodeChar).map UInt8.toNat

/-- The big-endian value of a byte string. -/
def beValue (bs : List Nat) : Nat := bs.foldl (fun a b => a * 256 + b) 0

/-- A hash function with an `n`-byte digest, such as `sha3.Sum256` (`n = 32`)
or `sha512.Sum512` (`n = 64`): a function from byte strings to `[n]byte`. -/
structure HashFn (n : Nat) where
  /-- The digest of a message. -/
  sum : List Nat → List Nat
  /-- The digest is an array of `n` elements. -/
  length_sum : ∀ m, (sum m).length = n
  /-- The digest elements are bytes. -/
  byte_sum : ∀ m, IsBytes (sum m)

/-! ## `encoding/base32`, standard encoding -/

/-- Modelled from the spec: the alphabet of "standard base-32" (RFC 4648 §6),
which is `encodeStd` of Go's `encoding/base32`. -/
def encodeStd : String := "ABCDEFGHIJKLMNOPQRSTUVWXYZ234567"

/-- Modelled from the spec: the padding character of standard base-32. -/
def padChar : Char := '='

/-- The table lookup `enc.encode[b & 31]`. -/
def encodeChar (b : Nat) : Char := encodeStd.data.getD (b &&& 31) 'A'

/-- Modelled from the spec: the unpacking step of standard base-32, written as
the `switch len(src)` with fall-through of `Encoding.Encode`: the first up to
five bytes of `src` become eight 5-bit values `b[0..7]`. -/
def quantum (src : List Nat) : List Nat :=
  let n := src.length
  let s := fun i => src.getD i 0
  -- default (five or more bytes)
  let b7 := if 5 ≤ n then s 4 &&& 0x1F else 0
  let b6 := if 5 ≤ n then s 4 >>> 5 else 0
  -- case 4
  let b6 := if 4 ≤ n then b6 ||| (shl8 (s 3) 3 &&& 0x1F) else b6
  let b5 := if 4 ≤ n then (s 3 >>> 2) &&& 0x1F else 0
  let b4 := if 4 ≤ n then s 3 >>> 7 else 0
  -- case 3
  let b4 := if 3 ≤ n then b4 ||| (shl8 (s 2) 1 &&& 0x1F) else b4
  let b3 := if 3 ≤ n then (s 2 >>> 4) &&& 0x1F else 0
  -- case 2
  let b3 := if 2 ≤ n then b3 ||| (shl8 (s 1) 4 &&& 0x1F) else b3
  let b2 := if 2 ≤ n then (s 1 >>> 1) &&& 0x1F else 0
  let b1 := if 2 ≤ n then (s 1 >>> 6) &&& 0x1F else 0
  -- case 1
  let b1 := if 1 ≤ n then b1 ||| (shl8 (s 0) 2 &&& 0x1F) else b1
  let b0 := if 1 ≤ n then s 0 >>> 3 else 0
  [b0, b1, b2, b3, b4, b5, b6, b7]

/-- Modelled from the spec: padding of the final quantum ("with padding"), as
in `Encoding.Encode`: for `n < 5` source bytes the unused trailing positions
of the eight output characters are overwritten with `=`. -/
def padFinal (dst : List Char) (n : Nat) : List Char :=
  if n < 5 then
    let dst := dst.set 7 padChar
    if n < 4 then
      let dst := (dst.set 6 padChar).set 5 padChar
      if n < 3 then
        let dst := dst.set 4 padChar
        if n < 2 then (dst.set 3 padChar).set 2 padChar else dst
      else dst
    else dst
  else dst

/-- Modelled from the spec: standard base-32 encoding with padding
(`base32.StdEncoding.Encode`): the source is consumed five bytes at a time,
each group giving eight characters. -/
def encode : List Nat → List Char
  | [] => []
  | s0 :: s1 :: s2 :: s3 :: s4 :: rest =>
      (quantum (s0 :: s1 :: s2 :: s3 :: s4 :: rest)).map encodeChar ++ encode rest
  | src => padFinal ((quantum src).map encodeChar) src.length

/-- The call `base32.StdEncoding.EncodeToString(src)`. -/
def encodeToString (src : List Nat) : String := String.mk (encode src)

/-- Modelled from the spec: "lower-cases the result" (`strings.ToLower`), on
the ASCII range, which holds every character base-32 can produce. -/
def toLower (s : String) : String := String.mk (s.data.map Char.toLower)

/-! ## Base-32 as RFC 4648 words it -/

/-- Modelled from the spec: one input group of standard base-32, in the words
of RFC 4648 §6: the up to five bytes are concatenated, zero bits are added on
the right to 40 bits, and the result is read as eight 5-bit groups, each
translated by the alphabet; the groups that hold no input bit are written as
the padding character. -/
def base32Group (group : List Nat) : List Char :=
  let bits := 8 * group.length
  let value := beValue group * 2 ^ (40 - bits)
  let used := (bits + 4) / 5
  (List.range 8).map (fun i =>
    if i < used then encodeStd.data.getD (value / 32 ^ (7 - i) % 32) 'A' else padChar)

/-- Modelled from the spec: "standard base-32 with padding" (RFC 4648 §6): the
input is cut into groups of five bytes, the last one possibly shorter. -/
def base32Std : List Nat → List Char
  | [] => []
  | s0 :: s1 :: s2 :: s3 :: s4 :: rest => base32Group [s0, s1, s2, s3, s4] ++ base32Std rest
  | final => base32Group final

/-! ## `encodePublicKey` -/

/-- The literal `".onion checksum"`. -/
def checksumLabel : String := ".onion checksum"

/-- The function `encodePublicKey` of `main.go`, over the SHA3-256 function
`sha3`.  The two `bytes.Buffer`s are the lists built by successive writes. -/
def encodePublicKey (sha3 : HashFn 32) (publicKey : List Nat) : String :=
  -- checksum = H(".onion checksum" || pubkey || version)
  let checksumBytes : List Nat := []
  let checksumBytes := checksumBytes ++ stringBytes checksumLabel
  let checksumBytes := checksumBytes ++ publicKey
  let checksumBytes := checksumBytes ++ [0x03]
  let checksum := sha3.sum checksumBytes
  -- onion_address = base32(pubkey || checksum || version)
  let onionAddressBytes : List Nat := []
  let onionAddressBytes := onionAddressBytes ++ publicKey
  let onionAddressBytes := onionAddressBytes ++ checksum.take 2
  let onionAddressBytes := onionAddressBytes ++ [0x03]
  let onionAddress := encodeToString onionAddressBytes
  toLower onionAddress

/-! ## Reversing the base-32 step -/

/-- Modelled from the spec: "upper-casing the identifier" (`strings.ToUpper`),
on the ASCII range. -/
def toUpper (s : String) : String := String.mk (s.data.map Char.toUpper)

/-- Modelled from the spec: the decoding table of standard base-32
(`enc.decodeMap`): the index of the character in the alphabet, `0xFF` for a
character outside it. -/
def decodeMap (c : Char) : Nat :=
  let i := encodeStd.data.indexOf c
  if i < 32 then i else 0xFF

/-- Modelled from the spec: the packing step of standard base-32 decoding, the
`switch dlen` with fall-through of `Encoding.decode`: `dlen` 5-bit values give
the leading bytes of a 5-byte group. -/
def pack (dbuf : List Nat) (dlen : Nat) : List Nat :=
  let d := fun i => dbuf.getD i 0
  let c8 := dlen = 8
  let c7 := c8 ∨ dlen = 7
  let c5 := c7 ∨ dlen = 5
  let c4 := c5 ∨ dlen = 4
  let c2 := c4 ∨ dlen = 2
  (if c2 then [shl8 (d 0) 3 ||| (d 1 >>> 2)] else []) ++
  (if c4 then [shl8 (d 1) 6 ||| shl8 (d 2) 1 ||| (d 3 >>> 4)] else []) ++
  (if c5 then [shl8 (d 3) 4 ||| (d 4 >>> 1)] else []) ++
  (if c7 then [shl8 (d 4) 7 ||| shl8 (d 5) 2 ||| (d 6 >>> 3)] else []) ++
  (if c8 then [shl8 (d 6) 5 ||| d 7] else [])

/-- Modelled from the spec: the inner loop `for j := 0; j < 8` of
`Encoding.decode` for an encoding with padding; `k` counts the iterations left
(`8 - j`).  The result is `(dbuf, dlen, end, src)`, or `none` for a corrupt
input. -/
def readQuantum : Nat → Nat → List Char → List Nat → Option (List Nat × Nat × Bool × List Char)
  | 0, _, src, dbuf => some (dbuf, 8, false, src)
  | k + 1, j, src, dbuf =>
    match src with
    | [] => none
    | c :: src =>
      if c = padChar ∧ 2 ≤ j ∧ src.length < 8 then
        if src.length + j < 8 - 1 then none
        else if (List.range (8 - 1 - j)).any (fun i => decide (i < src.length) && src.getD i padChar != padChar)
        then none
        else if j = 1 ∨ j = 3 ∨ j = 6 then none
        else some (dbuf, j, true, src)
      else
        let v := decodeMap c
        if v = 0xFF then none else readQuantum k (j + 1) src (dbuf.set j v)

/-- Modelled from the spec: the outer loop `for len(src) > 0 && !end` of
`Encoding.decode`.  Every iteration consumes at least one character, so
`src.length` iterations are enough; `fuel` bounds their number. -/
def decodeLoop : Nat → List Char → Option (List Nat)
  | 0, src => if src = [] then some [] else none
  | fuel + 1, src =>
    if src = [] then some []
    else
      match readQuantum 8 0 src (List.replicate 8 0) with
      | none => none
      | some (dbuf, dlen, done, src) =>
        if done then some (pack dbuf dlen)
        else (decodeLoop fuel src).map (fun tl => pack dbuf dlen ++ tl)

/-- Modelled from the spec: "decoding with standard base-32"
(`base32.StdEncoding.DecodeString`): line breaks are removed, then the
quanta are decoded; `none` stands for the error result. -/
def decodeString (s : String) : Option (List Nat) :=
  let src := s.data.filter (fun c => c != '\r' && c != '\n')
  decodeLoop src.length src


/-! ## SHA-512 and SHA3-256 -/

/-- Rotation of a 64-bit word to the right. -/
def rotr64 (x n : Nat) : Nat := ((x >>> n) ||| (x <<< (64 - n))) % 2 ^ 64

/-- Rotation of a 64-bit word to the left. -/
def rotl64 (x n : Nat) : Nat := ((x <<< n) ||| (x >>> (64 - n))) % 2 ^ 64

/-- Complement of a 64-bit word. -/
def not64 (x : Nat) : Nat := x ^^^ (2 ^ 64 - 1)

/-- The little-endian value of a byte string. -/
def leValue (bs : List Nat) : Nat := bs.foldr (fun b a => a * 256 + b) 0

/-- The eight bytes of a 64-bit word, most significant first. -/
def beBytes64 (w : Nat) : List Nat :=
  [w >>> 56 % 256, w >>> 48 % 256, w >>> 40 % 256, w >>> 32 % 256,
   w >>> 24 % 256, w >>> 16 % 256, w >>> 8 % 256, w % 256]

/-- The eight bytes of a 64-bit word, least significant first. -/
def leBytes64 (w : Nat) : List Nat :=
  [w % 256, w >>> 8 % 256, w >>> 16 % 256, w >>> 24 % 256,
   w >>> 32 % 256, w >>> 40 % 256, w >>> 48 % 256, w >>> 56 % 256]

/-- Modelled from the spec: the round constants of `Hash_SHA-512` (FIPS 180-4 §4.2.3). -/
def sha512K : List Nat := [
   0x428a2f98d728ae22, 0x7137449123ef65cd, 0xb5c0fbcfec4d3b2f, 0xe9b5dba58189dbbc,
   0x3956c25bf348b538, 0x59f111f1b605d019, 0x923f82a4af194f9b, 0xab1c5ed5da6d8118,
   0xd807aa98a3030242, 0x12835b0145706fbe, 0x243185be4ee4b28c, 0x550c7dc3d5ffb4e2,
   0x72be5d74f27b896f, 0x80deb1fe3b1696b1, 0x9bdc06a725c71235, 0xc19bf174cf692694,
   0xe49b69c19ef14ad2, 0xefbe4786384f25e3, 0x0fc19dc68b8cd5b5, 0x240ca1cc77ac9c65,
   0x2de92c6f592b0275, 0x4a7484aa6ea6e483, 0x5cb0a9dcbd41fbd4, 0x76f988da831153b5,
   0x983e5152ee66dfab, 0xa831c66d2db43210, 0xb00327c898fb213f, 0xbf597fc7beef0ee4,
   0xc6e00bf33da88fc2, 0xd5a79147930aa725, 0x06ca6351e003826f, 0x142929670a0e6e70,
   0x27b70a8546d22ffc, 0x2e1b21385c26c926, 0x4d2c6dfc5ac42aed, 0x53380d139d95b3df,
   0x650a73548baf63de, 0x766a0abb3c77b2a8, 0x81c2c92e47edaee6, 0x92722c851482353b,
   0xa2bfe8a14cf10364, 0xa81a664bbc423001, 0xc24b8b70d0f89791, 0xc76c51a30654be30,
   0xd192e819d6ef5218, 0xd69906245565a910, 0xf40e35855771202a, 0x106aa07032bbd1b8,
   0x19a4c116b8d2d0c8, 0x1e376c085141ab53, 0x2748774cdf8eeb99, 0x34b0bcb5e19b48a8,
   0x391c0cb3c5c95a63, 0x4ed8aa4ae3418acb, 0x5b9cca4f7763e373, 0x682e6ff3d6b2b8a3,
   0x748f82ee5defb2fc, 0x78a5636f43172f60, 0x84c87814a1f0ab72, 0x8cc702081a6439ec,
   0x90befffa23631e28, 0xa4506cebde82bde9, 0xbef9a3f7b2c67915, 0xc67178f2e372532b,
   0xca273eceea26619c, 0xd186b8c721c0c207, 0xeada7dd6cde0eb1e, 0xf57d4f7fee6ed178,
   0x06f067aa72176fba, 0x0a637dc5a2c898a6, 0x113f9804bef90dae, 0x1b710b35131c471b,
   0x28db77f523047d84, 0x32caab7b40c72493, 0x3c9ebe0a15c9bebc, 0x431d67c49c100d4c,
   0x4cc5d4becb3e42b6, 0x597f299cfc657e2a, 0x5fcb6fab3ad6faec, 0x6c44198c4a475817]

/-- Modelled from the spec: the initial hash value of `Hash_SHA-512` (FIPS 180-4 §5.3.5). -/
def sha512Init : List Nat := [
   0x6a09e667f3bcc908, 0xbb67ae8584caa73b, 0x3c6ef372fe94f82b, 0xa54ff53a5f1d36f1,
   0x510e527fade682d1, 0x9b05688c2b3e6c1f, 0x1f83d9abfb41bd6b, 0x5be0cd19137e2179]

/-- Modelled from the spec: the padding of `Hash_SHA-512` (FIPS 180-4 §5.1.2):
a `0x80` byte, zero bytes up to 112 modulo 128, the bit length on 16 bytes. -/
def sha512Pad (msg : List Nat) : List Nat :=
  msg ++ [0x80] ++ List.replicate ((239 - msg.length % 128) % 128) 0 ++
    beBytes64 (8 * msg.length / 2 ^ 64) ++ beBytes64 (8 * msg.length % 2 ^ 64)

/-- Modelled from the spec: the message schedule of `Hash_SHA-512` (FIPS 180-4 §6.4.2, step 1). -/
def sha512Schedule (block : List Nat) : List Nat :=
  let w16 := (List.range 16).map (fun t => beValue ((block.drop (8 * t)).take 8))
  (List.range 64).foldl (fun w i =>
    let x := w.getD (i + 1) 0
    let y := w.getD (i + 14) 0
    let s0 := rotr64 x 1 ^^^ rotr64 x 8 ^^^ (x >>> 7)
    let s1 := rotr64 y 19 ^^^ rotr64 y 61 ^^^ (y >>> 6)
    w ++ [(s1 + w.getD (i + 9) 0 + s0 + w.getD i 0) % 2 ^ 64]) w16

/-- Modelled from the spec: one round of `Hash_SHA-512` (FIPS 180-4 §6.4.2, step 3). -/
def sha512Round (st : List Nat) (k w : Nat) : List Nat :=
  match st with
  | [a, b, c, d, e, f, g, h] =>
    let t1 := (h + (rotr64 e 14 ^^^ rotr64 e 18 ^^^ rotr64 e 41) +
      ((e &&& f) ^^^ (not64 e &&& g)) + k + w) % 2 ^ 64
    let t2 := ((rotr64 a 28 ^^^ rotr64 a 34 ^^^ rotr64 a 39) +
      ((a &&& b) ^^^ (a &&& c) ^^^ (b &&& c))) % 2 ^ 64
    [(t1 + t2) % 2 ^ 64, a, b, c, (d + t1) % 2 ^ 64, e, f, g]
  | _ => st

/-- Modelled from the spec: the compression of one 128-byte block by `Hash_SHA-512`. -/
def sha512Compress (hash : List Nat) (block : List Nat) : List Nat :=
  let w := sha512Schedule block
  let st := (List.range 80).foldl (fun st t => sha512Round st (sha512K.getD t 0) (w.getD t 0)) hash
  List.zipWith (fun x y => (x + y) % 2 ^ 64) hash st

/-- Modelled from the spec: `Hash_SHA-512` (`sha512.Sum512`, FIPS 180-4), the
64-byte digest of a byte string. -/
def sha512Sum (msg : List Nat) : List Nat :=
  let m := sha512Pad msg
  let hash := (List.range (m.length / 128)).foldl
    (fun hash i => sha512Compress hash ((m.drop (128 * i)).take 128)) sha512Init
  [hash.getD 0 0, hash.getD 1 0, hash.getD 2 0, hash.getD 3 0,
   hash.getD 4 0, hash.getD 5 0, hash.getD 6 0, hash.getD 7 0].flatMap beBytes64

/-- Modelled from the spec: the round constants of Keccak-f[1600] (FIPS 202 §3.2.5). -/
def keccakRC : List Nat := [
   0x0000000000000001, 0x0000000000008082, 0x800000000000808a, 0x8000000080008000,
   0x000000000000808b, 0x0000000080000001, 0x8000000080008081, 0x8000000000008009,
   0x000000000000008a, 0x0000000000000088, 0x0000000080008009, 0x000000008000000a,
   0x000000008000808b, 0x800000000000008b, 0x8000000000008089, 0x8000000000008003,
   0x8000000000008002, 0x8000000000000080, 0x000000000000800a, 0x800000008000000a,
   0x8000000080008081, 0x8000000000008080, 0x0000000080000001, 0x8000000080008008]

/-- Modelled from the spec: the rotation offsets of Keccak-f[1600] (FIPS 202
§3.2.2), for the lane `x + 5 * y` at position `x + 5 * y`. -/
def keccakRot : List Nat := [
   0, 1, 62, 28, 27,
   36, 44, 6, 55, 20,
   3, 10, 43, 25, 39,
   41, 45, 15, 21, 8,
   18, 2, 61, 56, 14]

/-- Modelled from the spec: the lane permutation of Keccak-f[1600] (FIPS 202
§3.2.3): the lane `x + 5 * y` moves to position `y + 5 * ((2 * x + 3 * y) % 5)`;
the table gives, for each position, the lane that moves there. -/
def keccakPiSrc : List Nat := [
   0, 6, 12, 18, 24,
   3, 9, 10, 16, 22,
   1, 7, 13, 19, 20,
   4, 5, 11, 17, 23,
   2, 8, 14, 15, 21]

/-- Modelled from the spec: one round of Keccak-f[1600] (FIPS 202 §3.3) on the
25 lanes `a[x + 5 * y]`. -/
def keccakRound (a : List Nat) (rc : Nat) : List Nat :=
  let l := fun (s : List Nat) i => s.getD i 0
  let c := (List.range 5).map (fun x => l a x ^^^ l a (x + 5) ^^^ l a (x + 10) ^^^ l a (x + 15) ^^^ l a (x + 20))
  let d := (List.range 5).map (fun x => l c ((x + 4) % 5) ^^^ rotl64 (l c ((x + 1) % 5)) 1)
  let a := (List.range 25).map (fun i => l a i ^^^ l d (i % 5))
  let b := (List.range 25).map (fun i => rotl64 (l a (l keccakPiSrc i)) (l keccakRot (l keccakPiSrc i)))
  let a := (List.range 25).map (fun i =>
    l b i ^^^ (not64 (l b ((i % 5 + 1) % 5 + 5 * (i / 5))) &&& l b ((i % 5 + 2) % 5 + 5 * (i / 5))))
  a.set 0 (l a 0 ^^^ rc)

/-- Modelled from the spec: the permutation Keccak-f[1600], 24 rounds. -/
def keccakF (a : List Nat) : List Nat := keccakRC.foldl keccakRound a

/-- Modelled from the spec: the padding of SHA3-256 (FIPS 202 §6.1, §5.1): the
suffix `01` and `pad10*1` up to a multiple of the rate, 136 bytes. -/
def sha3Pad (msg : List Nat) : List Nat :=
  let n := 136 - msg.length % 136
  if n = 1 then msg ++ [0x86]
  else msg ++ [0x06] ++ List.replicate (n - 2) 0 ++ [0x80]

/-- Modelled from the spec: absorbing one 136-byte block into the state. -/
def sha3Absorb (a : List Nat) (block : List Nat) : List Nat :=
  keccakF ((List.range 25).map (fun j =>
    if j < 17 then a.getD j 0 ^^^ leValue ((block.drop (8 * j)).take 8) else a.getD j 0))

/-- Modelled from the spec: `Hash_SHA3-256` (`sha3.Sum256`, FIPS 202), the
32-byte digest of a byte string. -/
def sha3Sum256 (msg : List Nat) : List Nat :=
  let m := sha3Pad msg
  let a := (List.range (m.length / 136)).foldl
    (fun a i => sha3Absorb a ((m.drop (136 * i)).take 136)) (List.replicate 25 0)
  [a.getD 0 0, a.getD 1 0, a.getD 2 0, a.getD 3 0].flatMap leBytes64

/-- The function `sha512.Sum512` as a hash function with a 64-byte digest. -/
def Sum512 : HashFn 64 where
  sum := sha512Sum
  length_sum := fun m => by simp [sha512Sum, beBytes64]
  byte_sum := fun m b hb => by
    simp only [sha512Sum, beBytes64, List.mem_flatMap, List.mem_cons, List.mem_singleton,
      List.not_mem_nil, or_false] at hb
    obtain ⟨w, -, h⟩ := hb
    rcases h with h | h | h | h | h | h | h | h <;> omega

/-- The function `sha3.Sum256` as a hash function with a 32-byte digest. -/
def Sum256 : HashFn 32 where
  sum := sha3Sum256
  length_sum := fun m => by simp [sha3Sum256, leBytes64]
  byte_sum := fun m b hb => by
    simp only [sha3Sum256, leBytes64, List.mem_flatMap, List.mem_cons, List.mem_singleton,
      List.not_mem_nil, or_false] at hb
    obtain ⟨w, -, h⟩ := hb
    rcases h with h | h | h | h | h | h | h | h <;> omega

/-! ## `expandSecretKey` -/

/-- The function `expandSecretKey` of `main.go`, over the SHA-512 function
`sha512`.  The slice expression `secretKey[:32]` panics on a key that holds
fewer than 32 bytes (the capacity of the slice is taken to be its length): the
result is then `none`.  The keys of `ed25519.GenerateKey` hold 64 bytes. -/
def expandSecretKey (sha512 : HashFn 64) (secretKey : List Nat) : Option (List Nat) :=
  if secretKey.length < 32 then none
  else
    let hash := sha512.sum (secretKey.take 32)
    let hash := hash.set 0 (hash.getD 0 0 &&& 248)
    let hash := hash.set 31 (hash.getD 31 0 &&& 127)
    let hash := hash.set 31 (hash.getD 31 0 ||| 64)
    some hash

/-! ## `save` -/

/-- A file-system operation issued by `save`. -/
inductive FsOp where
  /-- The call `os.MkdirAll(path, perm)`. -/
  | mkdirAll (path : String) (perm : Nat)
  /-- The call `ioutil.WriteFile(path, data, perm)`. -/
  | writeFile (path : String) (data : List Nat) (perm : Nat)
  deriving DecidableEq, Repr

/-- The secret-key file content built by `save`:
`append([]byte("== ed25519v1-secret: type0 ==\x00\x00\x00"), secretKey[:]...)`. -/
def secretKeyFile (secretKey : List Nat) : List Nat :=
  stringBytes "== ed25519v1-secret: type0 ==\x00\x00\x00" ++ secretKey

/-- The public-key file content built by `save`:
`append([]byte("== ed25519v1-public: type0 ==\x00\x00\x00"), publicKey...)`. -/
def publicKeyFile (publicKey : List Nat) : List Nat :=
  stringBytes "== ed25519v1-public: type0 ==\x00\x00\x00" ++ publicKey

/-- The hostname file content built by `save`: `[]byte(onionAddress+".onion")`. -/
def hostnameFile (onionAddress : String) : List Nat :=
  stringBytes (onionAddress ++ ".onion")

/-- The function `save` of `main.go`: the file-system operations it issues, in
order.  The operations are taken to succeed (`checkErr` does not panic). -/
def save (onionAddress : String) (publicKey : List Nat) (secretKey : List Nat) : List FsOp :=
  [ FsOp.mkdirAll onionAddress 0o700,
    FsOp.writeFile (onionAddress ++ "/hs_ed25519_secret_key") (secretKeyFile secretKey) 0o600,
    FsOp.writeFile (onionAddress ++ "/hs_ed25519_public_key") (publicKeyFile publicKey) 0o600,
    FsOp.writeFile (onionAddress ++ "/hostname") (hostnameFile onionAddress) 0o600 ]

/-- The contents written to the file `path` by a sequence of operations, in order. -/
def written (ops : List FsOp) (path : String) : List (List Nat) :=
  ops.filterMap (fun op =>
    match op with
    | FsOp.writeFile p data _ => if p = path then some data else none
    | FsOp.mkdirAll _ _ => none)

/-! ## The search: `generate` and `main` -/

/-- A key pair returned by `ed25519.GenerateKey`. -/
structure KeyPair where
  /-- The public key, 32 bytes. -/
  publicKey : List Nat
  /-- The private key, 64 bytes: the seed followed by the public key. -/
  secretKey : List Nat
  deriving DecidableEq, Repr

/-- The shared state of the search. -/
structure SearchState where
  /-- The attempt counter `genCount`, a `uint64`. -/
  genCount : Nat
  /-- The counter of the `sync.WaitGroup` `wg`, the completion gate, as the 32-bit
  word that the `WaitGroup` keeps in the upper half of its state (`state >> 32`).
  The lower half, the number of waiters, is not changed by `Add` and is left out. -/
  wgCounter : Nat
  /-- The sink: the file-system operations issued by `save` so far. -/
  sink : List FsOp
  /-- The lines printed by `fmt.Println`. -/
  stdout : List String
  deriving DecidableEq, Repr

/-- The conversion `int32(w)` of a 32-bit word: its value in two's complement. -/
def int32 (w : Nat) : Int :=
  if w % 2 ^ 32 < 2 ^ 31 then ((w % 2 ^ 32 : Nat) : Int) else ((w % 2 ^ 32 : Nat) : Int) - 2 ^ 32

/-- The completion gate: the counter `v := int32(state >> 32)` of `wg`. -/
def SearchState.wg (s : SearchState) : Int := int32 s.wgCounter

/-- A panic: its message and the state in which it was raised. -/
structure Panic where
  /-- The message of the panic. -/
  msg : String
  /-- The state when the panic was raised. -/
  state : SearchState
  deriving DecidableEq, Repr

/-- The call `WaitGroup.Add(delta)` on the counter word:
`state := wg.state.Add(uint64(delta) << 32)`, then `v := int32(state >> 32)` and
`if v < 0 { panic("sync: negative WaitGroup counter") }`.  The addition is made
on 32 bits and before the check; the result is the new counter word and the
panic raised, if any.  (The other panic of `Add`, for an `Add` that runs
concurrently with `Wait`, needs a positive `delta` and a waiter: `main` calls
`Add` before it starts any worker, and `Done` adds `-1`.) -/
def wgAdd (counter : Nat) (delta : Int) : Nat × Option String :=
  let state := (((counter : Int) + delta) % 2 ^ 32).toNat
  let v := int32 state
  (state, if v < 0 then some "sync: negative WaitGroup counter" else none)

/-- The call `WaitGroup.Done()`, which is `Add(-1)`. -/
def wgDone (counter : Nat) : Nat × Option String := wgAdd counter (-1)

/-- The call `atomic.AddUint64(&v, delta)`: addition modulo `2 ^ 64`. -/
def atomicAddUint64 (v delta : Nat) : Nat := (v + delta) % 2 ^ 64

/-- One iteration of the loop of `generate`, for the key pair that
`ed25519.GenerateKey` returned and the pattern `re` (`re.MatchString`). -/
def generateStep (sha3 : HashFn 32) (sha512 : HashFn 64) (re : String → Bool)
    (key : KeyPair) (s : SearchState) : Except Panic SearchState :=
  let onionAddress := encodePublicKey sha3 key.publicKey
  -- If a matching address is found, save key and notify wait group
  if re onionAddress = true then
    let s := { s with stdout := s.stdout ++ [onionAddress] }
    match expandSecretKey sha512 key.secretKey with
    | none => .error ⟨"slice bounds out of range", s⟩
    | some expanded =>
      let s := { s with sink := s.sink ++ save onionAddress key.publicKey expanded }
      let done := wgDone s.wgCounter
      let s := { s with wgCounter := done.1 }
      match done.2 with
      | some msg => .error ⟨msg, s⟩
      | none => .ok { s with genCount := atomicAddUint64 s.genCount 1 }
  else
    .ok { s with genCount := atomicAddUint64 s.genCount 1 }

/-- A run of the search: the iterations of all workers in the order in which
they take effect, each with the key pair it generated. -/
def generateRun (sha3 : HashFn 32) (sha512 : HashFn 64) (re : String → Bool) :
    List KeyPair → SearchState → Except Panic SearchState
  | [], s => .ok s
  | key :: keys, s =>
    match generateStep sha3 sha512 re key s with
    | .error p => .error p
    | .ok s => generateRun sha3 sha512 re keys s

/-- The state that `main` sets up before it starts the workers:
`genCount = 0` and `wg.Add(*matchCount)` on a fresh `WaitGroup`; `matchCount`
is a Go `int`. -/
def mainInit (matchCount : Int) : Except Panic SearchState :=
  let s : SearchState := { genCount := 0, wgCounter := 0, sink := [], stdout := [] }
  let added := wgAdd s.wgCounter matchCount
  let s := { s with wgCounter := added.1 }
  match added.2 with
  | some msg => .error ⟨msg, s⟩
  | none => .ok s

/-- The search from its start: `main` sets the state up, then the iterations of
the workers take effect in the order `keys`. -/
def search (sha3 : HashFn 32) (sha512 : HashFn 64) (re : String → Bool) (matchCount : Int)
    (keys : List KeyPair) : Except Panic SearchState :=
  match mainInit matchCount with
  | .error p => .error p
  | .ok s => generateRun sha3 sha512 re keys s

/-- The call `wg.Wait()` of `main` returns in the states whose counter is zero
(`if v == 0 { return }`). -/
abbrev waitUnblocked (s : SearchState) : Prop := s.wg = 0

/-- The number of match events of a run: the iterations whose identifier
matches the pattern. -/
def matchEvents (sha3 : HashFn 32) (re : String → Bool) (keys : List KeyPair) : Nat :=
  (keys.filter (fun key => re (encodePublicKey sha3 key.publicKey))).length

/-- The state in which a run ended: the state reached, or the state in which
the panic was raised. -/
def finalState : Except Panic SearchState → SearchState
  | .ok s => s
  | .error p => p.state

/-- The message of the panic that ended a run, if one did. -/
def panicMsg : Except Panic SearchState → Option String
  | .ok _ => none
  | .error p => some p.msg

/-- The key pair that `ed25519.GenerateKey` derives from the all-zero seed: the
private key is the seed followed by the public key. -/
def zeroSeedKey : KeyPair where
  publicKey := [59, 106, 39, 188, 206, 182, 164, 45, 98, 163, 168, 208, 42, 111, 13, 115,
    101, 50, 21, 119, 29, 226, 67, 166, 58, 192, 72, 161, 139, 89, 218, 41]
  secretKey := List.replicate 32 0 ++
    [59, 106, 39, 188, 206, 182, 164, 45, 98, 163, 168, 208, 42, 111, 13, 115,
     101, 50, 21, 119, 29, 226, 67, 166, 58, 192, 72, 161, 139, 89, 218, 41]

/-- The key pair that `ed25519.GenerateKey` derives from the seed of 32 bytes `0x01`. -/
def onesSeedKey : KeyPair where
  publicKey := [138, 136, 227, 221, 116, 9, 241, 149, 253, 82, 219, 45, 60, 186, 93, 114,
    202, 103, 9, 191, 29, 148, 18, 27, 243, 116, 136, 1, 180, 15, 111, 92]
  secretKey := List.replicate 32 1 ++
    [138, 136, 227, 221, 116, 9, 241, 149, 253, 82, 219, 45, 60, 186, 93, 114,
     202, 103, 9, 191, 29, 148, 18, 27, 243, 116, 136, 1, 180, 15, 111, 92]

/-- The state of a search for one match, with a pattern that matches everything,
after its first iteration, on the key pair of the all-zero seed: the key is
saved and the gate is at zero. -/
def afterFirstMatch : SearchState :=
  finalState (search Sum256 Sum512 (fun _ => true) 1 [zeroSeedKey])

/-! ## Bit operations as arithmetic -/

/-- Masking with `0x1F` keeps the value modulo 32. -/
theorem and_31 (x : Nat) : x &&& 31 = x % 32 := Nat.and_pow_two_sub_one_eq_mod x 5

/-- A shift to the left on a byte is a multiplication modulo 256. -/
theorem shl8_eq (x k : Nat) : shl8 x k = x * 2 ^ k % 256 := by
  simp [shl8, Nat.shiftLeft_eq]

/-- The bitwise or of a multiple of `2 ^ k` and a value below `2 ^ k` is their sum. -/
theorem or_eq_add (k a b : Nat) (ha : a % 2 ^ k = 0) (hb : b < 2 ^ k) : a ||| b = a + b := by
  have h1 := Nat.mul_add_lt_is_or hb (a / 2 ^ k)
  have h2 : 2 ^ k * (a / 2 ^ k) = a := Nat.mul_div_cancel' (Nat.dvd_of_mod_eq_zero ha)
  rw [h2] at h1
  exact h1.symm

/-- The bitwise or of a value below `2 ^ k` and a multiple of `2 ^ k` is their sum. -/
theorem or_eq_add' (k a b : Nat) (ha : a % 2 ^ k = 0) (hb : b < 2 ^ k) : b ||| a = a + b := by
  rw [Nat.lor_comm]; exact or_eq_add k a b ha hb

/-- The eight 5-bit values of a full group, as arithmetic on its five bytes. -/
theorem quantum_five (s0 s1 s2 s3 s4 : Nat) (rest : List Nat)
    (h1 : s1 < 256) (h2 : s2 < 256) (h3 : s3 < 256) (h4 : s4 < 256) :
    quantum (s0 :: s1 :: s2 :: s3 :: s4 :: rest) =
      [s0 / 8, s0 % 8 * 4 + s1 / 64, s1 / 2 % 32, s1 % 2 * 16 + s2 / 16,
       s2 % 16 * 2 + s3 / 128, s3 / 4 % 32, s3 % 4 * 8 + s4 / 32, s4 % 32] := by
  simp only [quantum, List.length_cons, List.getD_cons_zero, List.getD_cons_succ, and_31,
    shl8_eq, Nat.shiftRight_eq_div_pow]
  have e1 : s1 / 2 ^ 6 % 32 ||| s0 * 2 ^ 2 % 256 % 32 = s0 % 8 * 4 + s1 / 64 := by
    rw [or_eq_add' 2 _ _ (by omega) (by omega)]; omega
  have e3 : s2 / 2 ^ 4 % 32 ||| s1 * 2 ^ 4 % 256 % 32 = s1 % 2 * 16 + s2 / 16 := by
    rw [or_eq_add' 4 _ _ (by omega) (by omega)]; omega
  have e4 : s3 / 2 ^ 7 ||| s2 * 2 ^ 1 % 256 % 32 = s2 % 16 * 2 + s3 / 128 := by
    rw [or_eq_add' 1 _ _ (by omega) (by omega)]; omega
  have e6 : s4 / 2 ^ 5 ||| s3 * 2 ^ 3 % 256 % 32 = s3 % 4 * 8 + s4 / 32 := by
    rw [or_eq_add' 3 _ _ (by omega) (by omega)]; omega
  have l1 : 1 ≤ rest.length + 1 + 1 + 1 + 1 + 1 := by omega
  have l2 : 2 ≤ rest.length + 1 + 1 + 1 + 1 + 1 := by omega
  have l3 : 3 ≤ rest.length + 1 + 1 + 1 + 1 + 1 := by omega
  have l4 : 4 ≤ rest.length + 1 + 1 + 1 + 1 + 1 := by omega
  have l5 : 5 ≤ rest.length + 1 + 1 + 1 + 1 + 1 := by omega
  simp only [l1, l2, l3, l4, l5, if_true]
  rw [e1, e3, e4, e6]

/-- Packing the eight 5-bit values of a full group gives its five bytes back. -/
theorem pack_five (s0 s1 s2 s3 s4 : Nat)
    (h0 : s0 < 256) (h1 : s1 < 256) (h2 : s2 < 256) (h3 : s3 < 256) (h4 : s4 < 256) :
    pack [s0 / 8, s0 % 8 * 4 + s1 / 64, s1 / 2 % 32, s1 % 2 * 16 + s2 / 16,
       s2 % 16 * 2 + s3 / 128, s3 / 4 % 32, s3 % 4 * 8 + s4 / 32, s4 % 32] 8 =
      [s0, s1, s2, s3, s4] := by
  simp only [pack, List.getD_cons_zero, List.getD_cons_succ, shl8_eq, Nat.shiftRight_eq_div_pow,
    true_or, if_true, List.singleton_append, List.cons_append, List.nil_append]
  have e0 : s0 / 8 * 2 ^ 3 % 256 ||| (s0 % 8 * 4 + s1 / 64) / 2 ^ 2 = s0 := by
    rw [or_eq_add 3 _ _ (by omega) (by omega)]; omega
  have e1 : (s0 % 8 * 4 + s1 / 64) * 2 ^ 6 % 256 ||| s1 / 2 % 32 * 2 ^ 1 % 256 |||
      (s1 % 2 * 16 + s2 / 16) / 2 ^ 4 = s1 := by
    rw [or_eq_add 6 ((s0 % 8 * 4 + s1 / 64) * 2 ^ 6 % 256) (s1 / 2 % 32 * 2 ^ 1 % 256)
      (by omega) (by omega), or_eq_add 1 _ _ (by omega) (by omega)]
    omega
  have e2 : (s1 % 2 * 16 + s2 / 16) * 2 ^ 4 % 256 ||| (s2 % 16 * 2 + s3 / 128) / 2 ^ 1 = s2 := by
    rw [or_eq_add 4 _ _ (by omega) (by omega)]; omega
  have e3 : (s2 % 16 * 2 + s3 / 128) * 2 ^ 7 % 256 ||| s3 / 4 % 32 * 2 ^ 2 % 256 |||
      (s3 % 4 * 8 + s4 / 32) / 2 ^ 3 = s3 := by
    rw [or_eq_add 7 ((s2 % 16 * 2 + s3 / 128) * 2 ^ 7 % 256) (s3 / 4 % 32 * 2 ^ 2 % 256)
      (by omega) (by omega), or_eq_add 2 _ _ (by omega) (by omega)]
    omega
  have e4 : (s3 % 4 * 8 + s4 / 32) * 2 ^ 5 % 256 ||| s4 % 32 = s4 := by
    rw [or_eq_add 5 _ _ (by omega) (by omega)]; omega
  rw [e0, e1, e2, e3, e4]

/-! ## Characters of the alphabet -/

/-- Every character of the alphabet, lower-cased and upper-cased again, is not
the padding character and decodes to its own index. -/
theorem decodeMap_encodeChar (v : Nat) (hv : v < 32) :
    (encodeChar v).toLower.toUpper ≠ padChar ∧
      decodeMap (encodeChar v).toLower.toUpper = v := by
  revert v
  decide

/-- Reading eight alphabet characters gives their eight indices and consumes
exactly these characters. -/
theorem readQuantum_full (v0 v1 v2 v3 v4 v5 v6 v7 : Nat) (tail : List Char)
    (h0 : v0 < 32) (h1 : v1 < 32) (h2 : v2 < 32) (h3 : v3 < 32)
    (h4 : v4 < 32) (h5 : v5 < 32) (h6 : v6 < 32) (h7 : v7 < 32) :
    readQuantum 8 0
      ((encodeChar v0).toLower.toUpper :: (encodeChar v1).toLower.toUpper ::
       (encodeChar v2).toLower.toUpper :: (encodeChar v3).toLower.toUpper ::
       (encodeChar v4).toLower.toUpper :: (encodeChar v5).toLower.toUpper ::
       (encodeChar v6).toLower.toUpper :: (encodeChar v7).toLower.toUpper :: tail)
      (List.replicate 8 0) = some ([v0, v1, v2, v3, v4, v5, v6, v7], 8, false, tail) := by
  obtain ⟨p0, d0⟩ := decodeMap_encodeChar v0 h0
  obtain ⟨p1, d1⟩ := decodeMap_encodeChar v1 h1
  obtain ⟨p2, d2⟩ := decodeMap_encodeChar v2 h2
  obtain ⟨p3, d3⟩ := decodeMap_encodeChar v3 h3
  obtain ⟨p4, d4⟩ := decodeMap_encodeChar v4 h4
  obtain ⟨p5, d5⟩ := decodeMap_encodeChar v5 h5
  obtain ⟨p6, d6⟩ := decodeMap_encodeChar v6 h6
  obtain ⟨p7, d7⟩ := decodeMap_encodeChar v7 h7
  have n0 : v0 ≠ 255 := by omega
  have n1 : v1 ≠ 255 := by omega
  have n2 : v2 ≠ 255 := by omega
  have n3 : v3 ≠ 255 := by omega
  have n4 : v4 ≠ 255 := by omega
  have n5 : v5 ≠ 255 := by omega
  have n6 : v6 ≠ 255 := by omega
  have n7 : v7 ≠ 255 := by omega
  simp [readQuantum, p0, p1, p2, p3, p4, p5, p6, p7, d0, d1, d2, d3, d4, d5, d6, d7,
    n0, n1, n2, n3, n4, n5, n6, n7, List.replicate]

/-! ## Encoding whole groups, and decoding them again -/

/-- A slice of `5 * (k + 1)` elements starts with a full group of five. -/
theorem exists_five (k : Nat) (bs : List Nat) (h : bs.length = 5 * (k + 1)) :
    ∃ s0 s1 s2 s3 s4 rest, bs = s0 :: s1 :: s2 :: s3 :: s4 :: rest ∧ rest.length = 5 * k := by
  rcases bs with _ | ⟨s0, _ | ⟨s1, _ | ⟨s2, _ | ⟨s3, _ | ⟨s4, rest⟩⟩⟩⟩⟩
  all_goals simp only [List.length_cons, List.length_nil] at h
  all_goals first
    | omega
    | exact ⟨s0, s1, s2, s3, s4, rest, rfl, by omega⟩

/-- The encoding of a full group followed by more input. -/
theorem encode_five (s0 s1 s2 s3 s4 : Nat) (rest : List Nat)
    (h1 : s1 < 256) (h2 : s2 < 256) (h3 : s3 < 256) (h4 : s4 < 256) :
    encode (s0 :: s1 :: s2 :: s3 :: s4 :: rest) =
      encodeChar (s0 / 8) :: encodeChar (s0 % 8 * 4 + s1 / 64) :: encodeChar (s1 / 2 % 32) ::
      encodeChar (s1 % 2 * 16 + s2 / 16) :: encodeChar (s2 % 16 * 2 + s3 / 128) ::
      encodeChar (s3 / 4 % 32) :: encodeChar (s3 % 4 * 8 + s4 / 32) :: encodeChar (s4 % 32) ::
      encode rest := by
  rw [encode, quantum_five s0 s1 s2 s3 s4 rest h1 h2 h3 h4]
  rfl

/-- Decoding the upper-cased lower-cased encoding of whole groups gives the
bytes back, whenever the fuel covers the number of groups. -/
theorem decodeLoop_encode (k : Nat) : ∀ bs : List Nat, bs.length = 5 * k → IsBytes bs →
    ∀ fuel, k ≤ fuel →
      decodeLoop fuel ((encode bs).map (fun c => c.toLower.toUpper)) = some bs := by
  induction k with
  | zero =>
    intro bs hl _ fuel _
    have hnil : bs = [] := List.length_eq_zero.mp (by simpa using hl)
    subst hnil
    cases fuel <;> simp [encode, decodeLoop]
  | succ k ih =>
    intro bs hl hb fuel hf
    obtain ⟨s0, s1, s2, s3, s4, rest, rfl, hlen⟩ := exists_five k bs hl
    obtain ⟨fuel, rfl⟩ : ∃ f, fuel = f + 1 := ⟨fuel - 1, by omega⟩
    have h0 : s0 < 256 := hb s0 (by simp)
    have h1 : s1 < 256 := hb s1 (by simp)
    have h2 : s2 < 256 := hb s2 (by simp)
    have h3 : s3 < 256 := hb s3 (by simp)
    have h4 : s4 < 256 := hb s4 (by simp)
    have hrest : IsBytes rest := fun b hm => hb b (by simp [hm])
    rw [encode_five s0 s1 s2 s3 s4 rest h1 h2 h3 h4]
    simp only [List.map_cons]
    rw [decodeLoop, if_neg (List.cons_ne_nil _ _),
      readQuantum_full _ _ _ _ _ _ _ _ _ (by omega) (by omega) (by omega) (by omega)
        (by omega) (by omega) (by omega) (by omega)]
    simp [pack_five s0 s1 s2 s3 s4 h0 h1 h2 h3 h4, ih rest hlen hrest fuel (by omega)]

/-- Lower-cased characters of the alphabet are in `a`-`z` or `2`-`7`, are not
the padding character, are fixed by lower-casing, and their upper-case forms
are not line breaks. -/
theorem toLower_encodeChar (v : Nat) (hv : v < 32) :
    (('a' ≤ (encodeChar v).toLower ∧ (encodeChar v).toLower ≤ 'z') ∨
      ('2' ≤ (encodeChar v).toLower ∧ (encodeChar v).toLower ≤ '7')) ∧
    (encodeChar v).toLower ≠ '=' ∧
    (encodeChar v).toLower.toLower = (encodeChar v).toLower ∧
    ((encodeChar v).toLower.toUpper != '\r' && (encodeChar v).toLower.toUpper != '\n') = true := by
  revert v
  decide

/-- The encoding of `k` whole groups is the image under the alphabet of `8 * k`
values below 32, the last of which is the low five bits of the last byte. -/
theorem encode_groups (k : Nat) : ∀ bs : List Nat, bs.length = 5 * k → IsBytes bs →
    ∃ vs : List Nat, vs.length = 8 * k ∧ (∀ v ∈ vs, v < 32) ∧ encode bs = vs.map encodeChar ∧
      ∀ x, bs.getLast? = some x → vs.getLast? = some (x % 32) := by
  induction k with
  | zero =>
    intro bs hl _
    have hnil : bs = [] := List.length_eq_zero.mp (by simpa using hl)
    subst hnil
    exact ⟨[], rfl, by simp, by simp [encode], by simp⟩
  | succ k ih =>
    intro bs hl hb
    obtain ⟨s0, s1, s2, s3, s4, rest, rfl, hlen⟩ := exists_five k bs hl
    have h1 : s1 < 256 := hb s1 (by simp)
    have h2 : s2 < 256 := hb s2 (by simp)
    have h3 : s3 < 256 := hb s3 (by simp)
    have h4 : s4 < 256 := hb s4 (by simp)
    have hrest : IsBytes rest := fun b hm => hb b (by simp [hm])
    obtain ⟨vs, hvl, hvs, henc, hlast⟩ := ih rest hlen hrest
    refine ⟨s0 / 8 :: (s0 % 8 * 4 + s1 / 64) :: (s1 / 2 % 32) :: (s1 % 2 * 16 + s2 / 16) ::
      (s2 % 16 * 2 + s3 / 128) :: (s3 / 4 % 32) :: (s3 % 4 * 8 + s4 / 32) :: (s4 % 32) :: vs,
      by simp [hvl]; omega, ?_, ?_, ?_⟩
    · have h0 : s0 < 256 := hb s0 (by simp)
      intro v hv
      simp only [List.mem_cons] at hv
      rcases hv with h | h | h | h | h | h | h | h | h
      all_goals first
        | exact hvs v h
        | omega
    · rw [encode_five s0 s1 s2 s3 s4 rest h1 h2 h3 h4, henc]
      rfl
    · intro x hx
      rcases rest with _ | ⟨r, rest⟩
      · have hk : k = 0 := by simp at hlen; omega
        have hv : vs = [] := List.length_eq_zero.mp (by rw [hvl, hk])
        subst hv
        simp at hx
        simp [hx]
      · have hx' : (r :: rest).getLast? = some x := by simpa [List.getLast?_cons_cons] using hx
        have hv := hlast x hx'
        rcases vs with _ | ⟨w, vs⟩
        · simp at hv
        · simpa [List.getLast?_cons_cons] using hv

/-! ## The encoder and RFC 4648 -/

/-- A full group is encoded as RFC 4648 words it. -/
theorem base32Group_five (s0 s1 s2 s3 s4 : Nat)
    (h1 : s1 < 256) (h2 : s2 < 256) (h3 : s3 < 256) (h4 : s4 < 256) :
    base32Group [s0, s1, s2, s3, s4] =
      [encodeChar (s0 / 8), encodeChar (s0 % 8 * 4 + s1 / 64), encodeChar (s1 / 2 % 32),
       encodeChar (s1 % 2 * 16 + s2 / 16), encodeChar (s2 % 16 * 2 + s3 / 128),
       encodeChar (s3 / 4 % 32), encodeChar (s3 % 4 * 8 + s4 / 32), encodeChar (s4 % 32)] := by
  have e0 : ((((0 * 256 + s0) * 256 + s1) * 256 + s2) * 256 + s3) * 256 + s4 =
      s0 * 4294967296 + s1 * 16777216 + s2 * 65536 + s3 * 256 + s4 := by ring
  simp only [base32Group, beValue, List.foldl, List.length_cons, List.length_nil, encodeChar,
    and_31, List.range, List.range.loop, List.map_cons, List.map_nil, e0]
  simp only [Nat.reduceMul, Nat.reduceAdd, Nat.reduceSub, Nat.reduceDiv, Nat.reducePow,
    Nat.reduceLT, if_true, Nat.zero_add, pow_zero, Nat.mul_one, Nat.div_one]
  simp only [List.cons.injEq, and_true]
  refine ⟨?_, ?_, ?_, ?_, ?_, ?_, ?_, ?_⟩ <;> congr 1 <;> omega

/-- A final group of one byte is encoded as RFC 4648 words it. -/
theorem encode_one (a : Nat) : encode [a] = base32Std [a] := by
  simp only [encode, base32Std, quantum, padFinal, base32Group, beValue, List.foldl,
    List.length_cons, List.length_nil, encodeChar, and_31, shl8_eq, Nat.shiftRight_eq_div_pow,
    List.getD_cons_zero, List.range, List.range.loop, List.map_cons, List.map_nil]
  simp only [Nat.reduceMul, Nat.reduceAdd, Nat.reduceSub, Nat.reduceDiv, Nat.reducePow,
    Nat.reduceLT, Nat.reduceLeDiff, if_true, if_false, Nat.zero_add, pow_zero, Nat.mul_one,
    Nat.div_one, List.set_cons_succ, List.set_cons_zero, Nat.zero_or, Nat.zero_mod,
    List.cons.injEq, and_true, true_and]
  refine ⟨?_, ?_⟩ <;> congr 1 <;> omega

/-- A final group of two bytes is encoded as RFC 4648 words it. -/
theorem encode_two (a b : Nat) (hb : b < 256) : encode [a, b] = base32Std [a, b] := by
  have e1 : b / 2 ^ 6 % 32 ||| a * 2 ^ 2 % 256 % 32 = a % 8 * 4 + b / 64 := by
    rw [or_eq_add' 2 _ _ (by omega) (by omega)]; omega
  simp only [encode, base32Std, quantum, padFinal, base32Group, beValue, List.foldl,
    List.length_cons, List.length_nil, encodeChar, and_31, shl8_eq, Nat.shiftRight_eq_div_pow,
    List.getD_cons_zero, List.getD_cons_succ, List.range, List.range.loop, List.map_cons,
    List.map_nil]
  simp only [Nat.reduceMul, Nat.reduceAdd, Nat.reduceSub, Nat.reduceDiv,
    Nat.reduceLT, Nat.reduceLeDiff, if_true, if_false, Nat.zero_add, pow_zero, Nat.mul_one,
    Nat.div_one, List.set_cons_succ, List.set_cons_zero, Nat.zero_or, Nat.zero_mod, e1]
  simp only [Nat.reducePow, List.cons.injEq, and_true, true_and]
  refine ⟨?_, ?_, ?_, ?_⟩ <;> congr 1 <;> omega

/-- A final group of three bytes is encoded as RFC 4648 words it. -/
theorem encode_three (a b c : Nat) (hb : b < 256) (hc : c < 256) :
    encode [a, b, c] = base32Std [a, b, c] := by
  have e1 : b / 2 ^ 6 % 32 ||| a * 2 ^ 2 % 256 % 32 = a % 8 * 4 + b / 64 := by
    rw [or_eq_add' 2 _ _ (by omega) (by omega)]; omega
  have e3 : c / 2 ^ 4 % 32 ||| b * 2 ^ 4 % 256 % 32 = b % 2 * 16 + c / 16 := by
    rw [or_eq_add' 4 _ _ (by omega) (by omega)]; omega
  simp only [encode, base32Std, quantum, padFinal, base32Group, beValue, List.foldl,
    List.length_cons, List.length_nil, encodeChar, and_31, shl8_eq, Nat.shiftRight_eq_div_pow,
    List.getD_cons_zero, List.getD_cons_succ, List.range, List.range.loop, List.map_cons,
    List.map_nil]
  simp only [Nat.reduceMul, Nat.reduceAdd, Nat.reduceSub, Nat.reduceDiv,
    Nat.reduceLT, Nat.reduceLeDiff, if_true, if_false, Nat.zero_add, pow_zero, Nat.mul_one,
    Nat.div_one, List.set_cons_succ, List.set_cons_zero, Nat.zero_or, Nat.zero_mod, e1, e3]
  simp only [Nat.reducePow, List.cons.injEq, and_true, true_and]
  refine ⟨?_, ?_, ?_, ?_, ?_⟩ <;> congr 1 <;> omega

/-- A final group of four bytes is encoded as RFC 4648 words it. -/
theorem encode_four (a b c d : Nat) (hb : b < 256) (hc : c < 256) (hd : d < 256) :
    encode [a, b, c, d] = base32Std [a, b, c, d] := by
  have e1 : b / 2 ^ 6 % 32 ||| a * 2 ^ 2 % 256 % 32 = a % 8 * 4 + b / 64 := by
    rw [or_eq_add' 2 _ _ (by omega) (by omega)]; omega
  have e3 : c / 2 ^ 4 % 32 ||| b * 2 ^ 4 % 256 % 32 = b % 2 * 16 + c / 16 := by
    rw [or_eq_add' 4 _ _ (by omega) (by omega)]; omega
  have e4 : d / 2 ^ 7 ||| c * 2 ^ 1 % 256 % 32 = c % 16 * 2 + d / 128 := by
    rw [or_eq_add' 1 _ _ (by omega) (by omega)]; omega
  simp only [encode, base32Std, quantum, padFinal, base32Group, beValue, List.foldl,
    List.length_cons, List.length_nil, encodeChar, and_31, shl8_eq, Nat.shiftRight_eq_div_pow,
    List.getD_cons_zero, List.getD_cons_succ, List.range, List.range.loop, List.map_cons,
    List.map_nil]
  simp only [Nat.reduceMul, Nat.reduceAdd, Nat.reduceSub, Nat.reduceDiv,
    Nat.reduceLT, Nat.reduceLeDiff, if_true, if_false, Nat.zero_add, pow_zero, Nat.mul_one,
    Nat.div_one, List.set_cons_succ, List.set_cons_zero, Nat.zero_or, Nat.zero_mod, e1, e3, e4]
  simp only [Nat.reducePow, List.cons.injEq, and_true, true_and]
  refine ⟨?_, ?_, ?_, ?_, ?_, ?_, ?_⟩ <;> congr 1 <;> omega

/-- On every byte string the encoder computes standard base-32 with padding as
RFC 4648 words it. -/
theorem encode_eq_base32Std : ∀ bs : List Nat, IsBytes bs → encode bs = base32Std bs := by
  intro bs
  induction bs using encode.induct with
  | case1 => intro _; simp [encode, base32Std]
  | case2 s0 s1 s2 s3 s4 rest ih =>
    intro hb
    have h1 : s1 < 256 := hb s1 (by simp)
    have h2 : s2 < 256 := hb s2 (by simp)
    have h3 : s3 < 256 := hb s3 (by simp)
    have h4 : s4 < 256 := hb s4 (by simp)
    have hrest : IsBytes rest := fun b hm => hb b (by simp [hm])
    rw [encode_five s0 s1 s2 s3 s4 rest h1 h2 h3 h4, base32Std,
      base32Group_five s0 s1 s2 s3 s4 h1 h2 h3 h4, ih hrest]
    rfl
  | case3 src hne hshort =>
    intro hb
    rcases src with _ | ⟨a, _ | ⟨b, _ | ⟨c, _ | ⟨d, _ | ⟨e, rest⟩⟩⟩⟩⟩
    · exact absurd rfl hne
    · exact encode_one a
    · exact encode_two a b (hb b (by simp))
    · exact encode_three a b c (hb b (by simp)) (hb c (by simp))
    · exact encode_four a b c d (hb b (by simp)) (hb c (by simp)) (hb d (by simp))
    · exact absurd rfl (hshort a b c d e rest)

/-! ## `encodePublicKey` -/

/-- The 35 bytes that `encodePublicKey` encodes: seven whole groups of bytes. -/
theorem onionAddressBytes_groups (sha3 : HashFn 32) (pk : List Nat)
    (hlen : pk.length = 32) (hbytes : IsBytes pk) :
    (pk ++ (sha3.sum (stringBytes ".onion checksum" ++ pk ++ [0x03])).take 2 ++ [0x03]).length
        = 5 * 7 ∧
      IsBytes (pk ++ (sha3.sum (stringBytes ".onion checksum" ++ pk ++ [0x03])).take 2 ++ [0x03]) := by
  constructor
  · simp [hlen, sha3.length_sum]
  · intro b hb
    simp only [List.mem_append, List.mem_singleton] at hb
    rcases hb with (hb | hb) | hb
    · exact hbytes b hb
    · exact sha3.byte_sum _ b (List.mem_of_mem_take hb)
    · omega

/-- The identifier as the image of 56 values below 32, the last one being 3. -/
theorem encodePublicKey_data (sha3 : HashFn 32) (pk : List Nat)
    (hlen : pk.length = 32) (hbytes : IsBytes pk) :
    ∃ vs : List Nat, vs.length = 56 ∧ (∀ v ∈ vs, v < 32) ∧
      (encodePublicKey sha3 pk).data = vs.map (fun v => (encodeChar v).toLower) ∧
      encode (pk ++ (sha3.sum (stringBytes ".onion checksum" ++ pk ++ [0x03])).take 2 ++ [0x03])
        = vs.map encodeChar ∧
      vs.getLast? = some 3 := by
  obtain ⟨hl, hb⟩ := onionAddressBytes_groups sha3 pk hlen hbytes
  obtain ⟨vs, hvl, hvs, henc, hlast⟩ := encode_groups 7 _ hl hb
  refine ⟨vs, hvl, hvs, ?_, henc, ?_⟩
  · show ((encode _).map Char.toLower) = _
    have : encode ([] ++ pk ++ List.take 2 (sha3.sum ([] ++ stringBytes checksumLabel ++ pk ++ [0x03]))
        ++ [0x03]) = vs.map encodeChar := by simpa using henc
    rw [this, List.map_map]
    rfl
  · simpa using hlast 3 (by simp)

/-! ## Claims on `encodePublicKey` -/

/-- C1: for every 32-byte public key `pk`, `encodePublicKey pk` is the
lower-cased standard base-32 encoding (RFC 4648, with padding) of
`pk ‖ c[0:2] ‖ 0x03`, where `c` is the SHA3-256 digest of
`".onion checksum" ‖ pk ‖ 0x03`; the hash is an arbitrary function to 32 bytes. -/
theorem encodePublicKey_eq_base32Std (sha3 : HashFn 32) (pk : List Nat)
    (hlen : pk.length = 32) (hbytes : IsBytes pk) :
    encodePublicKey sha3 pk =
      toLower (String.mk (base32Std
        (pk ++ (sha3.sum (stringBytes ".onion checksum" ++ pk ++ [0x03])).take 2 ++ [0x03]))) := by
  obtain ⟨hl, hb⟩ := onionAddressBytes_groups sha3 pk hlen hbytes
  rw [← encode_eq_base32Std _ hb]
  simp [encodePublicKey, encodeToString, checksumLabel]

/-- The instance of C1 at the public key `0, 1, …, 31` and the real SHA3-256. -/
theorem encodePublicKey_eq_base32Std_witness :
    (List.range 32).length = 32 ∧ IsBytes (List.range 32) ∧
    encodePublicKey Sum256 (List.range 32) =
      toLower (String.mk (base32Std
        (List.range 32 ++
          (Sum256.sum (stringBytes ".onion checksum" ++ List.range 32 ++ [0x03])).take 2 ++
          [0x03]))) :=
  ⟨by decide, by decide, encodePublicKey_eq_base32Std Sum256 (List.range 32) (by decide) (by decide)⟩

/-- C2: for every 32-byte public key `pk`, upper-casing `encodePublicKey pk`
and decoding it with standard base-32 succeeds and gives exactly the 35 bytes
`pk ‖ c[0:2] ‖ 0x03`, whose first 32 bytes are `pk`. -/
theorem decodeString_encodePublicKey (sha3 : HashFn 32) (pk : List Nat)
    (hlen : pk.length = 32) (hbytes : IsBytes pk) :
    decodeString (toUpper (encodePublicKey sha3 pk)) =
        some (pk ++ (sha3.sum (stringBytes ".onion checksum" ++ pk ++ [0x03])).take 2 ++ [0x03]) ∧
      (pk ++ (sha3.sum (stringBytes ".onion checksum" ++ pk ++ [0x03])).take 2 ++ [0x03]).length
        = 35 ∧
      (pk ++ (sha3.sum (stringBytes ".onion checksum" ++ pk ++ [0x03])).take 2 ++ [0x03]).take 32
        = pk := by
  obtain ⟨hl, hb⟩ := onionAddressBytes_groups sha3 pk hlen hbytes
  obtain ⟨vs, hvl, hvs, hdata, henc, -⟩ := encodePublicKey_data sha3 pk hlen hbytes
  refine ⟨?_, hl, ?_⟩
  · have hsrc : (toUpper (encodePublicKey sha3 pk)).data =
        (encode (pk ++ (sha3.sum (stringBytes ".onion checksum" ++ pk ++ [0x03])).take 2 ++ [0x03])).map
          (fun c => c.toLower.toUpper) := by
      show (encodePublicKey sha3 pk).data.map Char.toUpper = _
      rw [hdata, henc, List.map_map, List.map_map]
      rfl
    have hfilter : ∀ c ∈ (toUpper (encodePublicKey sha3 pk)).data,
        (c != '\r' && c != '\n') = true := by
      intro c hc
      rw [hsrc, henc, List.map_map] at hc
      obtain ⟨v, hv, rfl⟩ := List.mem_map.mp hc
      exact (toLower_encodeChar v (hvs v hv)).2.2.2
    unfold decodeString
    simp only [List.filter_eq_self.mpr hfilter]
    rw [hsrc]
    exact decodeLoop_encode 7 _ hl hb _ (by rw [List.length_map, henc, List.length_map, hvl]; omega)
  · rw [List.append_assoc, List.take_left' hlen]

/-- The instance of C2 at the public key `0, 1, …, 31` and the real SHA3-256. -/
theorem decodeString_encodePublicKey_witness :
    (List.range 32).length = 32 ∧ IsBytes (List.range 32) ∧
    decodeString (toUpper (encodePublicKey Sum256 (List.range 32))) =
      some (List.range 32 ++
        (Sum256.sum (stringBytes ".onion checksum" ++ List.range 32 ++ [0x03])).take 2 ++ [0x03]) :=
  ⟨by decide, by decide,
    (decodeString_encodePublicKey Sum256 (List.range 32) (by decide) (by decide)).1⟩

/-- C10: for every 32-byte public key `pk`, `encodePublicKey pk` has exactly 56
characters, none of them the padding character `=`, each of them in `a`-`z` or
`2`-`7`, so that lower-casing leaves it unchanged, and its last character is `d`. -/
theorem encodePublicKey_shape (sha3 : HashFn 32) (pk : List Nat)
    (hlen : pk.length = 32) (hbytes : IsBytes pk) :
    (encodePublicKey sha3 pk).length = 56 ∧
      '=' ∉ (encodePublicKey sha3 pk).data ∧
      (∀ c ∈ (encodePublicKey sha3 pk).data, ('a' ≤ c ∧ c ≤ 'z') ∨ ('2' ≤ c ∧ c ≤ '7')) ∧
      toLower (encodePublicKey sha3 pk) = encodePublicKey sha3 pk ∧
      (encodePublicKey sha3 pk).data.getLast? = some 'd' := by
  obtain ⟨vs, hvl, hvs, hdata, -, hlast⟩ := encodePublicKey_data sha3 pk hlen hbytes
  refine ⟨?_, ?_, ?_, ?_, ?_⟩
  · show (encodePublicKey sha3 pk).data.length = 56
    rw [hdata, List.length_map, hvl]
  · rw [hdata]
    intro hmem
    obtain ⟨v, hv, he⟩ := List.mem_map.mp hmem
    exact (toLower_encodeChar v (hvs v hv)).2.1 he
  · intro c hc
    rw [hdata] at hc
    obtain ⟨v, hv, rfl⟩ := List.mem_map.mp hc
    exact (toLower_encodeChar v (hvs v hv)).1
  · show String.mk ((encodePublicKey sha3 pk).data.map Char.toLower) = _
    have hfix : (encodePublicKey sha3 pk).data.map Char.toLower = (encodePublicKey sha3 pk).data := by
      rw [hdata, List.map_map]
      apply List.map_congr_left
      intro v hv
      exact (toLower_encodeChar v (hvs v hv)).2.2.1
    rw [hfix]
  · rw [hdata, List.getLast?_map, hlast]
    rfl

/-- The instance of C10 at the public key `0, 1, …, 31` and the real SHA3-256. -/
theorem encodePublicKey_shape_witness :
    (List.range 32).length = 32 ∧ IsBytes (List.range 32) ∧
    (encodePublicKey Sum256 (List.range 32)).length = 56 ∧
    (encodePublicKey Sum256 (List.range 32)).data.getLast? = some 'd' :=
  ⟨by decide, by decide,
    (encodePublicKey_shape Sum256 (List.range 32) (by decide) (by decide)).1,
    (encodePublicKey_shape Sum256 (List.range 32) (by decide) (by decide)).2.2.2.2⟩

/-! ## Claims on `expandSecretKey` -/

/-- Masking a byte with 248 clears its bits 0 to 2 and keeps the others. -/
theorem testBit_and_248 : ∀ x, x < 256 → ∀ j, j < 8 →
    (x &&& 248).testBit j = (decide (3 ≤ j) && x.testBit j) := by
  decide!

/-- Masking a byte with 127 and setting 64 clears bit 7, sets bit 6 and keeps
the others. -/
theorem testBit_and_127_or_64 : ∀ x, x < 256 → ∀ j, j < 8 →
    ((x &&& 127) ||| 64).testBit j = (decide (j = 6) || (decide (j ≠ 7) && x.testBit j)) := by
  decide!

/-- The value that `expandSecretKey` returns on a key of at least 32 bytes. -/
theorem expandSecretKey_eq (sha512 : HashFn 64) (sk : List Nat) (hlen : 32 ≤ sk.length) :
    ∃ out, expandSecretKey sha512 sk = some out ∧ out.length = 64 ∧
      out.getD 0 0 = (sha512.sum (sk.take 32)).getD 0 0 &&& 248 ∧
      out.getD 31 0 = ((sha512.sum (sk.take 32)).getD 31 0 &&& 127) ||| 64 ∧
      ∀ i, i ≠ 0 → i ≠ 31 → out.getD i 0 = (sha512.sum (sk.take 32)).getD i 0 := by
  have hl := sha512.length_sum (sk.take 32)
  have he : expandSecretKey sha512 sk = some (((sha512.sum (sk.take 32)).set 0
      ((sha512.sum (sk.take 32)).getD 0 0 &&& 248)).set 31
      ((((sha512.sum (sk.take 32)).set 0 ((sha512.sum (sk.take 32)).getD 0 0 &&& 248)).set 31
        (((sha512.sum (sk.take 32)).set 0 ((sha512.sum (sk.take 32)).getD 0 0 &&& 248)).getD 31 0
          &&& 127)).getD 31 0 ||| 64)) := by
    simp only [expandSecretKey, if_neg (Nat.not_lt.mpr hlen), List.set_set]
  refine ⟨_, he, ?_, ?_, ?_, ?_⟩
  · simp [hl]
  · simp [List.getD_eq_getElem?_getD, List.getElem?_set, hl]
  · simp [List.getD_eq_getElem?_getD, List.getElem?_set, hl]
  · intro i h0 h31
    simp [List.getD_eq_getElem?_getD, List.getElem?_set, hl, h0.symm, h31.symm, Ne.symm h0, Ne.symm h31]

/-- The elements of a digest are bytes, also when read with a default. -/
theorem getD_sum_lt {n : Nat} (hash : HashFn n) (m : List Nat) (i : Nat) :
    (hash.sum m).getD i 0 < 256 := by
  rw [List.getD_eq_getElem?_getD]
  rcases hget : (hash.sum m)[i]? with _ | b
  · simp
  · exact hash.byte_sum m b (List.getElem?_mem hget)

/-- Only the first 32 bytes of the private key, the seed, matter to `expandSecretKey`. -/
theorem expandSecretKey_append (sha512 : HashFn 64) (s rest : List Nat) (hs : s.length = 32) :
    expandSecretKey sha512 (s ++ rest) = expandSecretKey sha512 s := by
  have htake : (s ++ rest).take 32 = s := List.take_left' hs
  simp only [expandSecretKey, htake, List.take_of_length_le (Nat.le_of_eq hs),
    List.length_append, hs]
  simp

/-- C3: for every private key whose first 32 bytes are the seed `s`,
`expandSecretKey` returns the 64-byte value `out` obtained from `h = SHA-512(s)`
by `out[0] = h[0] AND 248`, `out[31] = (h[31] AND 127) OR 64` and `out[i] = h[i]`
elsewhere, that is by clearing bits 0-2 of `h[0]`, clearing bit 7 and setting
bit 6 of `h[31]`; the value is the same whatever follows the seed in the key. -/
theorem expandSecretKey_spec (sha512 : HashFn 64) (s : List Nat) (hs : s.length = 32) :
    ∃ out : List Nat, out.length = 64 ∧
      (∀ rest, expandSecretKey sha512 (s ++ rest) = some out) ∧
      out.getD 0 0 = (sha512.sum s).getD 0 0 &&& 248 ∧
      out.getD 31 0 = ((sha512.sum s).getD 31 0 &&& 127) ||| 64 ∧
      (∀ i, i ≠ 0 → i ≠ 31 → out.getD i 0 = (sha512.sum s).getD i 0) ∧
      (∀ j, j < 8 → (out.getD 0 0).testBit j =
        (decide (3 ≤ j) && ((sha512.sum s).getD 0 0).testBit j)) ∧
      (∀ j, j < 8 → (out.getD 31 0).testBit j =
        (decide (j = 6) || (decide (j ≠ 7) && ((sha512.sum s).getD 31 0).testBit j))) := by
  obtain ⟨out, he, hl, h0, h31, hi⟩ := expandSecretKey_eq sha512 s (by omega)
  rw [List.take_of_length_le (by omega)] at h0 h31 hi
  refine ⟨out, hl, ?_, h0, h31, hi, ?_, ?_⟩
  · intro rest
    rw [expandSecretKey_append sha512 s rest hs, he]
  · intro j hj
    rw [h0]
    exact testBit_and_248 _ (getD_sum_lt sha512 s 0) j hj
  · intro j hj
    rw [h31]
    exact testBit_and_127_or_64 _ (getD_sum_lt sha512 s 31) j hj

/-- The instance of C3 at the all-zero seed and the real SHA-512. -/
theorem expandSecretKey_spec_witness :
    (List.replicate 32 0).length = 32 ∧
    ∃ out : List Nat, out.length = 64 ∧
      (∀ rest, expandSecretKey Sum512 (List.replicate 32 0 ++ rest) = some out) ∧
      out.getD 0 0 = (Sum512.sum (List.replicate 32 0)).getD 0 0 &&& 248 ∧
      out.getD 31 0 = ((Sum512.sum (List.replicate 32 0)).getD 31 0 &&& 127) ||| 64 :=
  ⟨by decide,
    let ⟨out, hl, he, h0, h31, _⟩ := expandSecretKey_spec Sum512 (List.replicate 32 0) (by decide)
    ⟨out, hl, he, h0, h31⟩⟩

/-- C4, as the code has it: for every seed, the first byte of the output of
`expandSecretKey` has its bits 0, 1 and 2 clear, and the byte at index 31 (the
last byte of the first half of the 64-byte output) has bit 7 clear and bit 6 set. -/
theorem expandSecretKey_clamped (sha512 : HashFn 64) (s rest : List Nat) (hs : s.length = 32) :
    ∃ out : List Nat, expandSecretKey sha512 (s ++ rest) = some out ∧ out.length = 64 ∧
      (out.getD 0 0).testBit 0 = false ∧ (out.getD 0 0).testBit 1 = false ∧
      (out.getD 0 0).testBit 2 = false ∧
      (out.getD 31 0).testBit 7 = false ∧ (out.getD 31 0).testBit 6 = true := by
  obtain ⟨out, he, hl, h0, h31, -⟩ := expandSecretKey_eq sha512 s (by omega)
  have hb0 := testBit_and_248 _ (getD_sum_lt sha512 (s.take 32) 0)
  have hb31 := testBit_and_127_or_64 _ (getD_sum_lt sha512 (s.take 32) 31)
  rw [← h0] at hb0
  rw [← h31] at hb31
  refine ⟨out, by rw [expandSecretKey_append sha512 s rest hs, he], hl, ?_, ?_, ?_, ?_, ?_⟩
  · rw [hb0 0 (by omega)]; rfl
  · rw [hb0 1 (by omega)]; rfl
  · rw [hb0 2 (by omega)]; rfl
  · rw [hb31 7 (by omega)]; rfl
  · rw [hb31 6 (by omega)]; rfl

/-- The instance of the amended C4 at the key pair of the all-zero seed. -/
theorem expandSecretKey_clamped_witness :
    (List.replicate 32 0).length = 32 ∧
    ∃ out : List Nat, expandSecretKey Sum512 (List.replicate 32 0 ++ zeroSeedKey.publicKey) = some out ∧
      out.length = 64 ∧
      (out.getD 0 0).testBit 0 = false ∧ (out.getD 0 0).testBit 1 = false ∧
      (out.getD 0 0).testBit 2 = false ∧
      (out.getD 31 0).testBit 7 = false ∧ (out.getD 31 0).testBit 6 = true :=
  ⟨by decide, expandSecretKey_clamped Sum512 (List.replicate 32 0) zeroSeedKey.publicKey (by decide)⟩

/-- C4 fails as stated: for the key pair of the all-zero seed, the last byte of
the 64-byte output of `expandSecretKey` is 211, whose bit 7 is set. -/
theorem expandSecretKey_last_byte_counterexample :
    (expandSecretKey Sum512 zeroSeedKey.secretKey).map
        (fun out => (out.length, out.getLast?, (out.getD 63 0).testBit 7, (out.getD 63 0).testBit 6))
      = some (64, some 211, true, true) := by
  decide!

/-! ## Claims on `save` -/

/-- Appending to the same string is injective. -/
theorem append_right_cancel (s a b : String) (h : s ++ a = s ++ b) : a = b := by
  have hd := congrArg String.data h
  simp only [String.data_append, List.append_cancel_left_eq] at hd
  exact String.ext hd

/-- The bytes of a concatenation are the bytes of its parts. -/
theorem stringBytes_append (s t : String) : stringBytes (s ++ t) = stringBytes s ++ stringBytes t := by
  simp [stringBytes]

/-- The contents that `save` writes, file by file. -/
theorem written_save (onionAddress : String) (publicKey secretKey : List Nat) :
    written (save onionAddress publicKey secretKey) (onionAddress ++ "/hs_ed25519_secret_key")
        = [secretKeyFile secretKey] ∧
      written (save onionAddress publicKey secretKey) (onionAddress ++ "/hs_ed25519_public_key")
        = [publicKeyFile publicKey] ∧
      written (save onionAddress publicKey secretKey) (onionAddress ++ "/hostname")
        = [hostnameFile onionAddress] := by
  have n1 : onionAddress ++ "/hs_ed25519_public_key" ≠ onionAddress ++ "/hs_ed25519_secret_key" :=
    fun h => absurd (append_right_cancel _ _ _ h) (by decide)
  have n2 : onionAddress ++ "/hostname" ≠ onionAddress ++ "/hs_ed25519_secret_key" :=
    fun h => absurd (append_right_cancel _ _ _ h) (by decide)
  have n3 : onionAddress ++ "/hostname" ≠ onionAddress ++ "/hs_ed25519_public_key" :=
    fun h => absurd (append_right_cancel _ _ _ h) (by decide)
  simp [written, save, n1, n2, n3, n1.symm, n2.symm, n3.symm]

/-- C5, as the code has it: for every identifier, public key and 64-byte
expanded secret, the secret-key file that `save` writes is exactly
32 + 64 = 96 bytes long: the 29 ASCII bytes of `"== ed25519v1-secret: type0 =="`,
three zero bytes, then the 64 bytes of the expanded secret. -/
theorem save_secretKeyFile (onionAddress : String) (publicKey secretKey : List Nat)
    (hsecret : secretKey.length = 64) :
    written (save onionAddress publicKey secretKey) (onionAddress ++ "/hs_ed25519_secret_key") =
        [stringBytes "== ed25519v1-secret: type0 ==" ++ [0, 0, 0] ++ secretKey] ∧
      (stringBytes "== ed25519v1-secret: type0 ==").length = 29 ∧
      (stringBytes "== ed25519v1-secret: type0 ==" ++ [0, 0, 0] ++ secretKey).length = 32 + 64 := by
  refine ⟨?_, by decide, ?_⟩
  · rw [(written_save onionAddress publicKey secretKey).1]
    have hh : stringBytes "== ed25519v1-secret: type0 ==\x00\x00\x00" =
        stringBytes "== ed25519v1-secret: type0 ==" ++ [0, 0, 0] := by decide
    rw [secretKeyFile, hh]
  · have hh : (stringBytes "== ed25519v1-secret: type0 ==").length = 29 := by decide
    simp [hh, hsecret]

/-- The instance of the amended C5 at the identifier and public key of the
all-zero seed and a 64-byte secret. -/
theorem save_secretKeyFile_witness :
    (List.replicate 64 7).length = 64 ∧
    written (save "hnvcppgow2sc2yvdvdicu3ynonsteflxdxrehjr2ybekdc2z3iu63yid" zeroSeedKey.publicKey
        (List.replicate 64 7))
      ("hnvcppgow2sc2yvdvdicu3ynonsteflxdxrehjr2ybekdc2z3iu63yid" ++ "/hs_ed25519_secret_key") =
        [stringBytes "== ed25519v1-secret: type0 ==" ++ [0, 0, 0] ++ List.replicate 64 7] :=
  ⟨by decide, (save_secretKeyFile _ zeroSeedKey.publicKey (List.replicate 64 7) (by decide)).1⟩

/-- C5 fails as stated: for the key pair of the all-zero seed, its identifier and
its expanded secret, the secret-key file that `save` writes has 96 bytes, not 99. -/
theorem save_secretKeyFile_length_counterexample :
    (expandSecretKey Sum512 zeroSeedKey.secretKey).map (fun expanded =>
      (written (save (encodePublicKey Sum256 zeroSeedKey.publicKey) zeroSeedKey.publicKey expanded)
        (encodePublicKey Sum256 zeroSeedKey.publicKey ++ "/hs_ed25519_secret_key")).map List.length)
      = some [96] ∧ 96 ≠ 35 + 64 := by
  decide!

/-- C6: for every identifier and every 32-byte public key `pk`, the public-key
file that `save` writes is exactly 32 + 32 = 64 bytes: the ASCII bytes of
`"== ed25519v1-public: type0 =="`, three zero bytes, then `pk` unchanged; and
the hostname file holds the identifier followed by `.onion`. -/
theorem save_publicKeyFile_hostname (onionAddress : String) (pk secretKey : List Nat)
    (hpk : pk.length = 32) :
    written (save onionAddress pk secretKey) (onionAddress ++ "/hs_ed25519_public_key") =
        [stringBytes "== ed25519v1-public: type0 ==" ++ [0, 0, 0] ++ pk] ∧
      (stringBytes "== ed25519v1-public: type0 ==" ++ [0, 0, 0] ++ pk).length = 32 + 32 ∧
      written (save onionAddress pk secretKey) (onionAddress ++ "/hostname") =
        [stringBytes onionAddress ++ stringBytes ".onion"] := by
  obtain ⟨-, hpub, hhost⟩ := written_save onionAddress pk secretKey
  refine ⟨?_, ?_, ?_⟩
  · have hh : stringBytes "== ed25519v1-public: type0 ==\x00\x00\x00" =
        stringBytes "== ed25519v1-public: type0 ==" ++ [0, 0, 0] := by decide
    rw [hpub, publicKeyFile, hh]
  · have hh : (stringBytes "== ed25519v1-public: type0 ==").length = 29 := by decide
    simp [hh, hpk]
  · rw [hhost, hostnameFile, stringBytes_append]

/-- The instance of C6 at the key pair of the all-zero seed. -/
theorem save_publicKeyFile_hostname_witness :
    zeroSeedKey.publicKey.length = 32 ∧
    written (save "hnvcppgow2sc2yvdvdicu3ynonsteflxdxrehjr2ybekdc2z3iu63yid" zeroSeedKey.publicKey [])
      ("hnvcppgow2sc2yvdvdicu3ynonsteflxdxrehjr2ybekdc2z3iu63yid" ++ "/hostname") =
        [stringBytes "hnvcppgow2sc2yvdvdicu3ynonsteflxdxrehjr2ybekdc2z3iu63yid" ++ stringBytes ".onion"] :=
  ⟨by decide, (save_publicKeyFile_hostname _ zeroSeedKey.publicKey [] (by decide)).2.2⟩

/-! ## Claims on the search -/

/-- The counter of a `WaitGroup` is a 32-bit signed value. -/
theorem int32_range (w : Nat) : -2 ^ 31 ≤ int32 w ∧ int32 w < 2 ^ 31 := by
  unfold int32
  split <;> omega

/-- While the sum stays in the `int32` range, `Add` adds `delta` to the counter. -/
theorem wgAdd_fst (c : Nat) (d : Int) (h1 : -2 ^ 31 ≤ int32 c + d) (h2 : int32 c + d < 2 ^ 31) :
    int32 (wgAdd c d).1 = int32 c + d := by
  unfold wgAdd int32 at *
  simp only
  split at h1 <;> split <;> omega

/-- The panic of `Add` is raised exactly when the counter after the addition is negative. -/
theorem wgAdd_snd (c : Nat) (d : Int) :
    (wgAdd c d).2 =
      if int32 (wgAdd c d).1 < 0 then some "sync: negative WaitGroup counter" else none := rfl

/-- On a counter that is not negative, `Done` takes one unit, and panics exactly
when the counter was zero. -/
theorem wgDone_of_nonneg (c : Nat) (h : 0 ≤ int32 c) :
    int32 (wgDone c).1 = int32 c - 1 ∧
      ((wgDone c).2 = none ↔ 0 < int32 c) ∧
      (int32 c = 0 → (wgDone c).2 = some "sync: negative WaitGroup counter") := by
  have hr := int32_range c
  have h1 : int32 (wgDone c).1 = int32 c - 1 := by
    have := wgAdd_fst c (-1) (by omega) (by omega)
    simpa [wgDone, Int.sub_eq_add_neg] using this
  have h2 : (wgDone c).2 =
      if int32 (wgDone c).1 < 0 then some "sync: negative WaitGroup counter" else none :=
    wgAdd_snd c (-1)
  refine ⟨h1, ?_, ?_⟩
  · rw [h2, h1]
    constructor
    · intro hn
      by_contra hle
      rw [if_pos (by omega)] at hn
      cases hn
    · intro hpos
      rw [if_neg (by omega)]
  · intro h0
    rw [h2, h1, if_pos (by omega)]

/-- An iteration whose identifier does not match only counts the attempt. -/
theorem generateStep_of_not_match (sha3 : HashFn 32) (sha512 : HashFn 64) (re : String → Bool)
    (key : KeyPair) (s : SearchState) (hre : re (encodePublicKey sha3 key.publicKey) = false) :
    generateStep sha3 sha512 re key s = .ok { s with genCount := (s.genCount + 1) % 2 ^ 64 } := by
  simp [generateStep, hre, atomicAddUint64]

/-- An iteration whose identifier matches prints the identifier, saves the key
and calls `wg.Done()`, which takes one unit from the counter word; if `Done`
panics the attempt is not counted, otherwise it is. -/
theorem generateStep_of_match (sha3 : HashFn 32) (sha512 : HashFn 64) (re : String → Bool)
    (key : KeyPair) (s : SearchState) (expanded : List Nat)
    (hre : re (encodePublicKey sha3 key.publicKey) = true)
    (hexp : expandSecretKey sha512 key.secretKey = some expanded) :
    generateStep sha3 sha512 re key s =
      match (wgDone s.wgCounter).2 with
      | some msg =>
        .error ⟨msg,
          { genCount := s.genCount,
            wgCounter := (wgDone s.wgCounter).1,
            sink := s.sink ++ save (encodePublicKey sha3 key.publicKey) key.publicKey expanded,
            stdout := s.stdout ++ [encodePublicKey sha3 key.publicKey] }⟩
      | none =>
        .ok { genCount := (s.genCount + 1) % 2 ^ 64,
              wgCounter := (wgDone s.wgCounter).1,
              sink := s.sink ++ save (encodePublicKey sha3 key.publicKey) key.publicKey expanded,
              stdout := s.stdout ++ [encodePublicKey sha3 key.publicKey] } := by
  simp only [generateStep, hre, hexp, if_true, atomicAddUint64]

/-- An iteration whose identifier matches while the gate is positive completes:
it prints the identifier, saves the key, takes one unit from the gate and counts
the attempt. -/
theorem generateStep_of_match_pos (sha3 : HashFn 32) (sha512 : HashFn 64) (re : String → Bool)
    (key : KeyPair) (s : SearchState) (expanded : List Nat)
    (hre : re (encodePublicKey sha3 key.publicKey) = true)
    (hexp : expandSecretKey sha512 key.secretKey = some expanded) (hgate : 0 < s.wg) :
    ∃ s', generateStep sha3 sha512 re key s = .ok s' ∧
      s'.genCount = (s.genCount + 1) % 2 ^ 64 ∧ s'.wg = s.wg - 1 ∧
      s'.sink = s.sink ++ save (encodePublicKey sha3 key.publicKey) key.publicKey expanded ∧
      s'.stdout = s.stdout ++ [encodePublicKey sha3 key.publicKey] := by
  obtain ⟨h1, h2, -⟩ := wgDone_of_nonneg s.wgCounter (Int.le_of_lt hgate)
  rw [generateStep_of_match sha3 sha512 re key s expanded hre hexp, h2.mpr hgate]
  exact ⟨_, rfl, rfl, h1, rfl, rfl⟩

/-- An iteration whose identifier matches while the gate is zero prints the
identifier, saves the key, and panics in `wg.Done()`, which has brought the
counter to `-1`, before the attempt is counted. -/
theorem generateStep_of_match_zero (sha3 : HashFn 32) (sha512 : HashFn 64) (re : String → Bool)
    (key : KeyPair) (s : SearchState) (expanded : List Nat)
    (hre : re (encodePublicKey sha3 key.publicKey) = true)
    (hexp : expandSecretKey sha512 key.secretKey = some expanded) (hgate : s.wg = 0) :
    ∃ p, generateStep sha3 sha512 re key s = .error p ∧
      p.msg = "sync: negative WaitGroup counter" ∧
      p.state.genCount = s.genCount ∧ p.state.wg = -1 ∧
      p.state.sink = s.sink ++ save (encodePublicKey sha3 key.publicKey) key.publicKey expanded ∧
      p.state.stdout = s.stdout ++ [encodePublicKey sha3 key.publicKey] := by
  obtain ⟨h1, -, h3⟩ := wgDone_of_nonneg s.wgCounter (Int.le_of_eq hgate.symm)
  have hgate' : int32 s.wgCounter = 0 := hgate
  rw [generateStep_of_match sha3 sha512 re key s expanded hre hexp, h3 hgate']
  refine ⟨_, rfl, rfl, rfl, ?_, rfl, rfl⟩
  show int32 (wgDone s.wgCounter).1 = -1
  rw [h1, hgate']
  rfl

/-- A private key of 64 bytes is expanded without a panic. -/
theorem expandSecretKey_isSome (sha512 : HashFn 64) (sk : List Nat) (hlen : sk.length = 64) :
    ∃ expanded, expandSecretKey sha512 sk = some expanded := by
  obtain ⟨out, he, -⟩ := expandSecretKey_eq sha512 sk (by omega)
  exact ⟨out, he⟩

/-- Every iteration that completes sets the attempt counter to its successor
modulo `2 ^ 64`. -/
theorem generateStep_ok_genCount (sha3 : HashFn 32) (sha512 : HashFn 64) (re : String → Bool)
    (key : KeyPair) (s s' : SearchState)
    (hstep : generateStep sha3 sha512 re key s = .ok s') :
    s'.genCount = (s.genCount + 1) % 2 ^ 64 := by
  rcases hre : re (encodePublicKey sha3 key.publicKey) with _ | _
  · rw [generateStep_of_not_match sha3 sha512 re key s hre] at hstep
    cases hstep
    rfl
  · rcases hexp : expandSecretKey sha512 key.secretKey with _ | expanded
    · simp [generateStep, hre, hexp] at hstep
    · rw [generateStep_of_match sha3 sha512 re key s expanded hre hexp] at hstep
      rcases hdone : (wgDone s.wgCounter).2 with _ | msg
      · rw [hdone] at hstep
        cases hstep
        rfl
      · rw [hdone] at hstep
        cases hstep

/-- Every iteration that completes takes one unit from the gate if its
identifier matches and none otherwise, and leaves the gate non-negative. -/
theorem generateStep_ok_wg (sha3 : HashFn 32) (sha512 : HashFn 64) (re : String → Bool)
    (key : KeyPair) (s s' : SearchState) (hwg : 0 ≤ s.wg)
    (hstep : generateStep sha3 sha512 re key s = .ok s') :
    0 ≤ s'.wg ∧
      s'.wg + (if re (encodePublicKey sha3 key.publicKey) = true then 1 else 0 : Nat) = s.wg := by
  rcases hre : re (encodePublicKey sha3 key.publicKey) with _ | _
  · rw [generateStep_of_not_match sha3 sha512 re key s hre] at hstep
    cases hstep
    have hsame : SearchState.wg { s with genCount := (s.genCount + 1) % 2 ^ 64 } = s.wg := rfl
    rw [hsame]
    simp [hwg]
  · rcases hexp : expandSecretKey sha512 key.secretKey with _ | expanded
    · simp [generateStep, hre, hexp] at hstep
    · obtain ⟨h1, h2, -⟩ := wgDone_of_nonneg s.wgCounter hwg
      rw [generateStep_of_match sha3 sha512 re key s expanded hre hexp] at hstep
      rcases hdone : (wgDone s.wgCounter).2 with _ | msg
      · rw [hdone] at hstep
        cases hstep
        have hpos : 0 < s.wg := h2.mp hdone
        have hnew : SearchState.wg
            { genCount := (s.genCount + 1) % 2 ^ 64,
              wgCounter := (wgDone s.wgCounter).1,
              sink := s.sink ++ save (encodePublicKey sha3 key.publicKey) key.publicKey expanded,
              stdout := s.stdout ++ [encodePublicKey sha3 key.publicKey] } = s.wg - 1 := h1
        rw [hnew]
        simp
        omega
      · rw [hdone] at hstep
        cases hstep

/-- The match events of a run, iteration by iteration. -/
theorem matchEvents_cons (sha3 : HashFn 32) (re : String → Bool) (key : KeyPair)
    (keys : List KeyPair) :
    matchEvents sha3 re (key :: keys) =
      (if re (encodePublicKey sha3 key.publicKey) = true then 1 else 0) + matchEvents sha3 re keys := by
  unfold matchEvents
  rw [List.filter_cons]
  split <;> simp [Nat.add_comm]

/-- Along a run that completes, the attempt counter advances by one per
iteration as long as it stays below `2 ^ 64`. -/
theorem generateRun_ok_genCount (sha3 : HashFn 32) (sha512 : HashFn 64) (re : String → Bool) :
    ∀ (keys : List KeyPair) (s s' : SearchState),
      generateRun sha3 sha512 re keys s = .ok s' → s.genCount + keys.length < 2 ^ 64 →
      s'.genCount = s.genCount + keys.length := by
  intro keys
  induction keys with
  | nil =>
    intro s s' hrun _
    simp only [generateRun] at hrun
    cases hrun
    rfl
  | cons key keys ih =>
    intro s s' hrun hlt
    simp only [generateRun] at hrun
    rcases hstep : generateStep sha3 sha512 re key s with p | s1
    · rw [hstep] at hrun
      cases hrun
    · rw [hstep] at hrun
      have h1 := generateStep_ok_genCount sha3 sha512 re key s s1 hstep
      simp only [List.length_cons] at hlt ⊢
      have h2 : s1.genCount = s.genCount + 1 := by rw [h1]; exact Nat.mod_eq_of_lt (by omega)
      rw [ih s1 s' hrun (by omega), h2]
      omega

/-- Along a run that completes, the gate has gone down by the number of match
events, and is not negative. -/
theorem generateRun_ok_wg (sha3 : HashFn 32) (sha512 : HashFn 64) (re : String → Bool) :
    ∀ (keys : List KeyPair) (s s' : SearchState), 0 ≤ s.wg →
      generateRun sha3 sha512 re keys s = .ok s' →
      0 ≤ s'.wg ∧ s'.wg + matchEvents sha3 re keys = s.wg := by
  intro keys
  induction keys with
  | nil =>
    intro s s' hwg hrun
    simp only [generateRun] at hrun
    cases hrun
    simp [matchEvents, hwg]
  | cons key keys ih =>
    intro s s' hwg hrun
    simp only [generateRun] at hrun
    rcases hstep : generateStep sha3 sha512 re key s with p | s1
    · rw [hstep] at hrun
      cases hrun
    · rw [hstep] at hrun
      obtain ⟨h0, h1⟩ := generateStep_ok_wg sha3 sha512 re key s s1 hwg hstep
      obtain ⟨h2, h3⟩ := ih s1 s' h0 hrun
      refine ⟨h2, ?_⟩
      rw [matchEvents_cons, Nat.cast_add]
      omega

/-- A run with no more match events than the gate holds completes. -/
theorem generateRun_total (sha3 : HashFn 32) (sha512 : HashFn 64) (re : String → Bool) :
    ∀ (keys : List KeyPair) (s : SearchState), (∀ key ∈ keys, key.secretKey.length = 64) →
      (matchEvents sha3 re keys : Int) ≤ s.wg →
      ∃ s', generateRun sha3 sha512 re keys s = .ok s' := by
  intro keys
  induction keys with
  | nil =>
    intro s _ _
    exact ⟨s, rfl⟩
  | cons key keys ih =>
    intro s hkeys hle
    rw [matchEvents_cons] at hle
    have hrest : ∀ k ∈ keys, k.secretKey.length = 64 := fun k hk => hkeys k (by simp [hk])
    rcases hre : re (encodePublicKey sha3 key.publicKey) with _ | _
    · simp only [generateRun, generateStep_of_not_match sha3 sha512 re key s hre]
      apply ih _ hrest
      simp [hre] at hle
      exact hle
    · obtain ⟨expanded, hexp⟩ := expandSecretKey_isSome sha512 key.secretKey (hkeys key (by simp))
      simp [hre] at hle
      have hpos : 0 < s.wg := by omega
      obtain ⟨s1, hs1, -, hwg1, -⟩ :=
        generateStep_of_match_pos sha3 sha512 re key s expanded hre hexp hpos
      simp only [generateRun, hs1]
      apply ih _ hrest
      rw [hwg1]
      omega

/-- C7, as the code has it: for a generated key pair (a private key of 64
bytes), an iteration whose identifier does not match, or matches while the
completion gate is positive, completes and sets the attempt
counter `c` to `(c + 1) mod 2 ^ 64`, which is `c + 1` whenever `c < 2 ^ 64 - 1`;
hence along a run that completes and stays below `2 ^ 64` the counter advances by
one per iteration and never decreases. -/
theorem generateStep_genCount (sha3 : HashFn 32) (sha512 : HashFn 64) (re : String → Bool)
    (key : KeyPair) (s : SearchState) (hkey : key.secretKey.length = 64)
    (hgate : re (encodePublicKey sha3 key.publicKey) = false ∨ 0 < s.wg) :
    (∃ s', generateStep sha3 sha512 re key s = .ok s' ∧
        s'.genCount = (s.genCount + 1) % 2 ^ 64 ∧
        (s.genCount + 1 < 2 ^ 64 → s'.genCount = s.genCount + 1)) ∧
      ∀ (keys : List KeyPair) (s1 : SearchState),
        generateRun sha3 sha512 re keys s = .ok s1 → s.genCount + keys.length < 2 ^ 64 →
        s1.genCount = s.genCount + keys.length ∧ s.genCount ≤ s1.genCount := by
  constructor
  · have hex : ∃ s', generateStep sha3 sha512 re key s = .ok s' := by
      rcases hre : re (encodePublicKey sha3 key.publicKey) with _ | _
      · exact ⟨_, generateStep_of_not_match sha3 sha512 re key s hre⟩
      · obtain ⟨expanded, hexp⟩ := expandSecretKey_isSome sha512 key.secretKey hkey
        have hpos : 0 < s.wg := by
          rcases hgate with h | h
          · rw [hre] at h
            cases h
          · exact h
        obtain ⟨s', hs', -⟩ := generateStep_of_match_pos sha3 sha512 re key s expanded hre hexp hpos
        exact ⟨s', hs'⟩
    obtain ⟨s', hs'⟩ := hex
    have hc := generateStep_ok_genCount sha3 sha512 re key s s' hs'
    exact ⟨s', hs', hc, fun hlt => by rw [hc]; exact Nat.mod_eq_of_lt hlt⟩
  · intro keys s1 hrun hlt
    have h := generateRun_ok_genCount sha3 sha512 re keys s s1 hrun hlt
    exact ⟨h, by omega⟩

/-- The instance of the amended C7 at the key pair of the all-zero seed, a
pattern that matches everything and a gate that holds one unit. -/
theorem generateStep_genCount_witness :
    zeroSeedKey.secretKey.length = 64 ∧
    ((fun _ => true : String → Bool) (encodePublicKey Sum256 zeroSeedKey.publicKey) = false ∨
      0 < (⟨41, 1, [], []⟩ : SearchState).wg) ∧
    ∃ s', generateStep Sum256 Sum512 (fun _ => true) zeroSeedKey ⟨41, 1, [], []⟩ = .ok s' ∧
      s'.genCount = (41 + 1) % 2 ^ 64 :=
  ⟨by decide, Or.inr (by decide),
    let ⟨s', h, hc, _⟩ :=
      (generateStep_genCount Sum256 Sum512 (fun _ => true) zeroSeedKey ⟨41, 1, [], []⟩
        (by decide) (Or.inr (by decide))).1
    ⟨s', h, hc⟩⟩

/-- C7 fails as stated, twice.  An iteration that does not match, at the counter
`2 ^ 64 - 1`, leaves the counter at 0.  And in the search for one match with a
pattern that matches everything, the second iteration matches when the gate has
reached zero: both identifiers are printed, `wg.Done()` panics, and the counter
stays at 1 after two iterations. -/
theorem generateStep_genCount_counterexample :
    (finalState (generateStep Sum256 Sum512 (fun _ => false) zeroSeedKey
        ⟨2 ^ 64 - 1, 1, [], []⟩)).genCount = 0 ∧
      panicMsg (generateStep Sum256 Sum512 (fun _ => false) zeroSeedKey
        ⟨2 ^ 64 - 1, 1, [], []⟩) = none ∧
      panicMsg (search Sum256 Sum512 (fun _ => true) 1 [zeroSeedKey, onesSeedKey]) =
        some "sync: negative WaitGroup counter" ∧
      (finalState (search Sum256 Sum512 (fun _ => true) 1 [zeroSeedKey, onesSeedKey])).stdout.length
        = 2 ∧
      (finalState (search Sum256 Sum512 (fun _ => true) 1 [zeroSeedKey, onesSeedKey])).genCount
        = 1 := by
  decide!

/-- For a match count below `2 ^ 31`, `main` sets the gate to it without a panic. -/
theorem mainInit_of_lt (N : Nat) (hN : N < 2 ^ 31) :
    ∃ s, mainInit (N : Int) = .ok s ∧ s.wg = N ∧ s.genCount = 0 := by
  have hfst : int32 (wgAdd 0 (N : Int)).1 = N := by
    have h := wgAdd_fst 0 (N : Int) (by simp [int32]; omega) (by simp [int32]; omega)
    simpa [int32] using h
  have hsnd : (wgAdd 0 (N : Int)).2 = none := by
    rw [wgAdd_snd, hfst, if_neg (by omega)]
  refine ⟨{ genCount := 0, wgCounter := (wgAdd 0 (N : Int)).1, sink := [], stdout := [] }, ?_,
    hfst, rfl⟩
  simp only [mainInit, hsnd]

/-- C8, as the code has it: in the search for `N` matches with `N < 2 ^ 31`
(the counter of a `WaitGroup` has 32 bits) over generated key pairs (private
keys of 64 bytes), in every state that a run reaches the gate plus the number
of match events signalled is `N`; so the wait of `main` is unblocked exactly in
the states where at least `N` (then exactly `N`) match events have been
signalled, never after fewer, and as soon as the `N`-th is; and every run with
at most `N` match events does reach such a state. -/
theorem waitUnblocked_iff_matchEvents (sha3 : HashFn 32) (sha512 : HashFn 64)
    (re : String → Bool) (N : Nat) (keys : List KeyPair) (hN : N < 2 ^ 31)
    (hkeys : ∀ key ∈ keys, key.secretKey.length = 64) :
    (∀ s, search sha3 sha512 re N keys = .ok s →
        s.wg + matchEvents sha3 re keys = N ∧
        (waitUnblocked s ↔ N ≤ matchEvents sha3 re keys) ∧
        (matchEvents sha3 re keys < N → ¬ waitUnblocked s) ∧
        (matchEvents sha3 re keys = N → waitUnblocked s)) ∧
      (matchEvents sha3 re keys ≤ N → ∃ s, search sha3 sha512 re N keys = .ok s) := by
  obtain ⟨s0, hinit, hwg0, -⟩ := mainInit_of_lt N hN
  have hsearch : search sha3 sha512 re N keys = generateRun sha3 sha512 re keys s0 := by
    simp only [search, hinit]
  constructor
  · intro s hs
    rw [hsearch] at hs
    obtain ⟨h0, h1⟩ := generateRun_ok_wg sha3 sha512 re keys s0 s (by omega) hs
    rw [hwg0] at h1
    refine ⟨h1, ?_, ?_, ?_⟩
    · unfold waitUnblocked
      constructor <;> intro h <;> omega
    · intro h
      unfold waitUnblocked
      omega
    · intro h
      unfold waitUnblocked
      omega
  · intro hle
    rw [hsearch]
    exact generateRun_total sha3 sha512 re keys s0 hkeys (by rw [hwg0]; exact_mod_cast hle)

/-- The instance of the amended C8 at `N = 2`, a pattern that matches the
identifiers that start with `h`, and the key pairs of the all-zero seed and of
the seed of `0x01` bytes: one match event, and the wait is still blocked. -/
theorem waitUnblocked_iff_matchEvents_witness :
    (2 < 2 ^ 31) ∧ (∀ key ∈ [zeroSeedKey, onesSeedKey], key.secretKey.length = 64) ∧
    matchEvents Sum256 (fun a => a.data.head? == some 'h') [zeroSeedKey, onesSeedKey] = 1 ∧
    ∀ s, search Sum256 Sum512 (fun a => a.data.head? == some 'h') (2 : Nat)
        [zeroSeedKey, onesSeedKey] = .ok s →
      s.wg + matchEvents Sum256 (fun a => a.data.head? == some 'h') [zeroSeedKey, onesSeedKey]
        = (2 : Nat) :=
  ⟨by decide, by decide, by decide!,
    fun s hs => ((waitUnblocked_iff_matchEvents Sum256 Sum512 (fun a => a.data.head? == some 'h') 2
      [zeroSeedKey, onesSeedKey] (by decide) (by decide)).1 s hs).1⟩

/-- C8 fails as stated for large `N`: the counter of a `WaitGroup` has 32 bits, so
for `N = 2 ^ 32` the call `wg.Add(N)` of `main` leaves the gate at zero and the
wait is unblocked with no match event signalled, before any iteration and after
one that does not match; for `N = 2 ^ 31` the call panics. -/
theorem waitUnblocked_counterexample :
    panicMsg (search Sum256 Sum512 (fun _ => false) 4294967296 []) = none ∧
      waitUnblocked (finalState (search Sum256 Sum512 (fun _ => false) 4294967296 [])) ∧
      panicMsg (search Sum256 Sum512 (fun _ => false) 4294967296 [zeroSeedKey]) = none ∧
      waitUnblocked (finalState (search Sum256 Sum512 (fun _ => false) 4294967296 [zeroSeedKey])) ∧
      matchEvents Sum256 (fun _ => false) [zeroSeedKey] = 0 ∧
      panicMsg (search Sum256 Sum512 (fun _ => false) 2147483648 []) =
        some "sync: negative WaitGroup counter" := by
  decide!

/-- C9: for one iteration of `generate` with the generated key pair `(pk, sk)`, in
a state whose gate is not negative: the pattern is tested against
`encodePublicKey pk`; if it matches, the sink receives exactly the files of
`save (encodePublicKey pk) pk (expandSecretKey sk)` and the gate is decremented
by exactly one (to `-1` from zero, where `wg.Done()` then panics: the iteration
completes exactly when the gate was positive); if it does not match, the
iteration completes, nothing is handed to the sink and the gate is unchanged. -/
theorem generateStep_sink_gate (sha3 : HashFn 32) (sha512 : HashFn 64) (re : String → Bool)
    (key : KeyPair) (s : SearchState) (hkey : key.secretKey.length = 64) (hwg : 0 ≤ s.wg) :
    (re (encodePublicKey sha3 key.publicKey) = true →
        ∃ expanded, expandSecretKey sha512 key.secretKey = some expanded ∧
          (finalState (generateStep sha3 sha512 re key s)).sink =
            s.sink ++ save (encodePublicKey sha3 key.publicKey) key.publicKey expanded ∧
          (finalState (generateStep sha3 sha512 re key s)).wg = s.wg - 1 ∧
          (panicMsg (generateStep sha3 sha512 re key s) = none ↔ 0 < s.wg)) ∧
      (re (encodePublicKey sha3 key.publicKey) = false →
        panicMsg (generateStep sha3 sha512 re key s) = none ∧
          (finalState (generateStep sha3 sha512 re key s)).sink = s.sink ∧
          (finalState (generateStep sha3 sha512 re key s)).wg = s.wg) := by
  constructor
  · intro hre
    obtain ⟨expanded, hexp⟩ := expandSecretKey_isSome sha512 key.secretKey hkey
    obtain ⟨h1, h2, -⟩ := wgDone_of_nonneg s.wgCounter hwg
    refine ⟨expanded, hexp, ?_⟩
    rw [generateStep_of_match sha3 sha512 re key s expanded hre hexp]
    rcases hdone : (wgDone s.wgCounter).2 with _ | msg
    · exact ⟨rfl, h1, fun _ => h2.mp hdone, fun _ => rfl⟩
    · refine ⟨rfl, h1, fun hn => ?_, fun hpos => ?_⟩
      · cases hn
      · rw [h2.mpr hpos] at hdone
        cases hdone
  · intro hre
    rw [generateStep_of_not_match sha3 sha512 re key s hre]
    exact ⟨rfl, rfl, rfl⟩

/-- The instance of C9 at a match with the gate at zero: the state after the
first match of a search for one match, the key pair of the seed of `0x01` bytes
and a pattern that matches everything.  The sink receives the files of the
second key and the gate goes from `0` to `-1`. -/
theorem generateStep_sink_gate_witness :
    onesSeedKey.secretKey.length = 64 ∧ 0 ≤ afterFirstMatch.wg ∧ afterFirstMatch.wg = 0 ∧
    ∃ expanded, expandSecretKey Sum512 onesSeedKey.secretKey = some expanded ∧
      (finalState (generateStep Sum256 Sum512 (fun _ => true) onesSeedKey afterFirstMatch)).sink =
        afterFirstMatch.sink ++
          save (encodePublicKey Sum256 onesSeedKey.publicKey) onesSeedKey.publicKey expanded ∧
      (finalState (generateStep Sum256 Sum512 (fun _ => true) onesSeedKey afterFirstMatch)).wg =
        afterFirstMatch.wg - 1 :=
  ⟨by decide, by decide!, by decide!,
    let ⟨expanded, hexp, hsink, hgate, _⟩ :=
      (generateStep_sink_gate Sum256 Sum512 (fun _ => true) onesSeedKey afterFirstMatch
        (by decide) (by decide!)).1 rfl
    ⟨expanded, hexp, hsink, hgate⟩⟩

end Oniongen
